import Mathlib

/-!
A shallow embedding of the `rt-format` crate's format-string parsing core
(src/lib.rs, src/parser.rs, src/argument.rs, src/codegen.rs), together with
theorems checking the natural-language specification against it.

Modelling conventions:
* Rust strings are modelled as `List Char`; byte offsets are recovered by
  summing `Char.utf8Size` over consumed characters, which agrees with the
  source's byte arithmetic because every slice boundary taken by the source
  falls on a character boundary.
* `usize` is modelled as `Nat`; where the source's `str::parse::<usize>`
  can fail on overflow, the model checks `< 2 ^ 64` explicitly.
* The source locates captures with the `regex` crate, whose matching is
  leftmost-first (Perl-like preference order).  The matcher below implements
  that preference order directly, stage by stage, for the source's two
  anchored regular expressions (`SPEC_REGEX_FRAG` and `ARG_RE`).  The
  regex's `\d` class is Unicode-aware in the source; it is modelled as the
  ASCII digits, which coincides on every template in which non-ASCII
  decimal digits do not appear.
* Rust panics are modelled explicitly: the one potentially-panicking
  expression (`text.as_bytes()[0]` in `parse_size`) surfaces as an
  `Option.none`, and a run of the parser can end in `.panicked`.
-/

set_option linter.unusedVariables false

namespace RtFormat

/-! ## The Specifier model (src/lib.rs, `generate_code!` invocation) -/

/-- `align: Align` dimension: `None => "", Left => "<", Center => "^", Right => ">"`. -/
inductive Align where
  | none | left | center | right
deriving DecidableEq

/-- `sign: Sign` dimension: `Default => "", Always => "+"`. -/
inductive Sign where
  | default | always
deriving DecidableEq

/-- `repr: Repr` dimension: `Default => "", Alt => "#"`. -/
inductive Repr where
  | default | alt
deriving DecidableEq

/-- `pad: Pad` dimension: `Space => "", Zero => "0"`. -/
inductive Pad where
  | space | zero
deriving DecidableEq

/-- `width: Width` dimension: `Auto => "", AtLeast { width: usize }`. -/
inductive Width where
  | auto | atLeast (width : Nat)
deriving DecidableEq

/-- `precision: Precision` dimension: `Auto => "", Exactly { precision: usize }`. -/
inductive Precision where
  | auto | exactly (precision : Nat)
deriving DecidableEq

/-- `format: Format` dimension, the eight elementary rendering modes. -/
inductive Format where
  | display | debug | octal | lowerHex | upperHex | binary | lowerExp | upperExp
deriving DecidableEq

/-- The `Specifier` struct generated by `generate_code!`: seven independent fields. -/
structure Specifier where
  align : Align
  sign : Sign
  repr : Repr
  pad : Pad
  width : Width
  precision : Precision
  format : Format
deriving DecidableEq

/-- `impl Default for Specifier` (src/lib.rs). -/
def Specifier.default : Specifier :=
  ⟨Align.none, Sign.default, Repr.default, Pad.space, Width.auto, Precision.auto, Format.display⟩

/-! The `TryFrom<&str>` conversions generated by `generate_code!` for the
argument-less dimensions (`Width`/`Precision` carry a payload and get none). -/

/-- Generated `TryFrom<&str> for Align`. -/
def Align.tryFrom : List Char → Except Unit Align
  | [] => .ok Align.none
  | ['<'] => .ok Align.left
  | ['^'] => .ok Align.center
  | ['>'] => .ok Align.right
  | _ => .error ()

/-- Generated `TryFrom<&str> for Sign`. -/
def Sign.tryFrom : List Char → Except Unit Sign
  | [] => .ok Sign.default
  | ['+'] => .ok Sign.always
  | _ => .error ()

/-- Generated `TryFrom<&str> for Repr`. -/
def Repr.tryFrom : List Char → Except Unit Repr
  | [] => .ok Repr.default
  | ['#'] => .ok Repr.alt
  | _ => .error ()

/-- Generated `TryFrom<&str> for Pad`. -/
def Pad.tryFrom : List Char → Except Unit Pad
  | [] => .ok Pad.space
  | ['0'] => .ok Pad.zero
  | _ => .error ()

/-- Generated `TryFrom<&str> for Format`. -/
def Format.tryFrom : List Char → Except Unit Format
  | [] => .ok Format.display
  | ['?'] => .ok Format.debug
  | ['o'] => .ok Format.octal
  | ['x'] => .ok Format.lowerHex
  | ['X'] => .ok Format.upperHex
  | ['b'] => .ok Format.binary
  | ['e'] => .ok Format.lowerExp
  | ['E'] => .ok Format.upperExp
  | _ => .error ()

/-! ## Decimal rendering of `usize` (the `write!(f, "{}", width)` calls in
`impl fmt::Display for Specifier`).  Structured like core's `Nat.toDigitsCore`
(fuel-driven) so that it evaluates by kernel reduction. -/

/-- The decimal digit character for `n % 10`. -/
def decChar (n : Nat) : Char := Char.ofNat (n % 10 + 48)

/-- Fuel-driven accumulator loop producing the decimal digits of `n` before `acc`. -/
def natToDecimalAux : Nat → Nat → List Char → List Char
  | 0, _, acc => acc
  | fuel + 1, n, acc =>
    if n < 10 then decChar n :: acc
    else natToDecimalAux fuel (n / 10) (decChar n :: acc)

/-- Decimal rendering of a natural number, no leading zeros (`"0"` for zero). -/
def natToDecimal (n : Nat) : List Char := natToDecimalAux (n + 1) n []

/-! ## Canonical textual rendering of a `Specifier`
(`impl fmt::Display for Specifier`, src/lib.rs). -/

/-- Fragment written for the `align` field. -/
def Align.frag : Align → List Char
  | Align.none => []
  | Align.left => ['<']
  | Align.center => ['^']
  | Align.right => ['>']

/-- Fragment written for the `sign` field. -/
def Sign.frag : Sign → List Char
  | Sign.default => []
  | Sign.always => ['+']

/-- Fragment written for the `repr` field. -/
def Repr.frag : Repr → List Char
  | Repr.default => []
  | Repr.alt => ['#']

/-- Fragment written for the `pad` field. -/
def Pad.frag : Pad → List Char
  | Pad.space => []
  | Pad.zero => ['0']

/-- Fragment written for the `width` field (`write!(f, "{}", width)`). -/
def Width.frag : Width → List Char
  | Width.auto => []
  | Width.atLeast w => natToDecimal w

/-- Fragment written for the `precision` field (`write!(f, ".{}", precision)`). -/
def Precision.frag : Precision → List Char
  | Precision.auto => []
  | Precision.exactly p => '.' :: natToDecimal p

/-- Fragment written for the `format` field. -/
def Format.frag : Format → List Char
  | Format.display => []
  | Format.debug => ['?']
  | Format.octal => ['o']
  | Format.lowerHex => ['x']
  | Format.upperHex => ['X']
  | Format.binary => ['b']
  | Format.lowerExp => ['e']
  | Format.upperExp => ['E']

/-- `impl fmt::Display for Specifier`: the seven fragments in field order. -/
def Specifier.render (s : Specifier) : List Char :=
  s.align.frag ++ s.sign.frag ++ s.repr.frag ++ s.pad.frag ++
    s.width.frag ++ s.precision.frag ++ s.format.frag

/-! ## The specifier regular expression (`SPEC_REGEX_FRAG!`, src/parser.rs)

The fragment is
`(?P<align>[<^>])? (?P<sign>\+)? (?P<repr>\#)? (?P<pad>0)?
 (?P<width>(?:\d+\$?)|(?:[[:alpha:]][[:alnum:]]*\$))?
 (?:\.(?P<precision>(?:\d+\$?)|(?:[[:alpha:]][[:alnum:]]*\$)|\*))?
 (?P<format>[?oxXbeE])?`.

Each named group below is matched by a stage that first tries to consume its
token (the regex's greedy preference) and falls back to skipping the optional
group, exactly the leftmost-first backtracking order of the `regex` crate.
The continuation `accept` stands for whatever follows the fragment in the
enclosing regex: always-true for the standalone `SPEC_RE` (anchored only at
the start), or a closing-brace test inside `ARG_RE`. -/

/-- Characters matched by the `align` class `[<^>]`. -/
def isAlignChar (c : Char) : Bool := c = '<' || c = '^' || c = '>'

/-- Characters matched by the `format` class `[?oxXbeE]`. -/
def isFmtChar (c : Char) : Bool :=
  c = '?' || c = 'o' || c = 'x' || c = 'X' || c = 'b' || c = 'e' || c = 'E'

/-- The capture set of one `SPEC_REGEX_FRAG` match; `Option.none` is an
unmatched group (whose `Parseable` conversion sees the empty string). -/
structure SpecCaptures where
  align : Option (List Char)
  sign : Option (List Char)
  repr : Option (List Char)
  pad : Option (List Char)
  width : Option (List Char)
  precision : Option (List Char)
  format : Option (List Char)
deriving DecidableEq

/-- The capture set with every group unmatched. -/
def SpecCaptures.empty : SpecCaptures := ⟨none, none, none, none, none, none, none⟩

/-- Candidate `(token, rest)` splits for the `(?:\d+\$?)|(?:[[:alpha:]][[:alnum:]]*\$)`
alternation shared by the `width` and `precision` groups, in leftmost-first
preference order.  A shorter-than-maximal `\d+` or `[[:alnum:]]*` match would
leave a digit (resp. an alphanumeric character, where a `$` is required) in
front, which no later element of either enclosing regex can consume, so those
backtracking candidates can never succeed and are omitted. -/
def digitTokenCands (cs : List Char) : List (List Char × List Char) :=
  if (cs.takeWhile Char.isDigit).isEmpty then []
  else
    match cs.drop (cs.takeWhile Char.isDigit).length with
    | '$' :: r2 =>
      [(cs.takeWhile Char.isDigit ++ ['$'], r2), (cs.takeWhile Char.isDigit, '$' :: r2)]
    | r => [(cs.takeWhile Char.isDigit, r)]

/-- Candidates for the `[[:alpha:]][[:alnum:]]*\$` alternative. -/
def nameTokenCands (cs : List Char) : List (List Char × List Char) :=
  match cs.head? with
  | some c =>
    if c.isAlpha then
      match cs.drop (cs.takeWhile Char.isAlphanum).length with
      | '$' :: r2 => [(cs.takeWhile Char.isAlphanum ++ ['$'], r2)]
      | _ => []
    else []
  | none => []

/-- Candidates for the `width` group's token. -/
def widthCands (cs : List Char) : List (List Char × List Char) :=
  digitTokenCands cs ++ nameTokenCands cs

/-- Candidates for the `precision` group's token (the extra `\*` alternative last). -/
def precCands (cs : List Char) : List (List Char × List Char) :=
  digitTokenCands cs ++ nameTokenCands cs ++
    (if cs.head? = some '*' then [(['*'], cs.tail)] else [])

/-- Stage for `(?P<format>[?oxXbeE])?`, the last element of the fragment. -/
def fmtStage (accept : List Char → Bool) (caps : SpecCaptures) (cs : List Char) :
    Option (SpecCaptures × List Char) :=
  (match cs with
   | c :: rest =>
     if isFmtChar c && accept rest then some ({ caps with format := some [c] }, rest)
     else none
   | [] => none).orElse
  (fun _ => if accept cs then some (caps, cs) else none)

/-- Stage for `(?:\.(?P<precision>...))?`. -/
def precStage (accept : List Char → Bool) (caps : SpecCaptures) (cs : List Char) :
    Option (SpecCaptures × List Char) :=
  (match cs with
   | '.' :: rest =>
     (precCands rest).findSome?
       (fun (tr : List Char × List Char) =>
         fmtStage accept { caps with precision := some tr.1 } tr.2)
   | _ => none).orElse
  (fun _ => fmtStage accept caps cs)

/-- Stage for `(?P<width>...)?`. -/
def widthStage (accept : List Char → Bool) (caps : SpecCaptures) (cs : List Char) :
    Option (SpecCaptures × List Char) :=
  ((widthCands cs).findSome?
    (fun (tr : List Char × List Char) =>
      precStage accept { caps with width := some tr.1 } tr.2)).orElse
  (fun _ => precStage accept caps cs)

/-- Stage for `(?P<pad>0)?`. -/
def padStage (accept : List Char → Bool) (caps : SpecCaptures) (cs : List Char) :
    Option (SpecCaptures × List Char) :=
  (match cs with
   | '0' :: rest => widthStage accept { caps with pad := some ['0'] } rest
   | _ => none).orElse
  (fun _ => widthStage accept caps cs)

/-- Stage for `(?P<repr>\#)?`. -/
def reprStage (accept : List Char → Bool) (caps : SpecCaptures) (cs : List Char) :
    Option (SpecCaptures × List Char) :=
  (match cs with
   | '#' :: rest => padStage accept { caps with repr := some ['#'] } rest
   | _ => none).orElse
  (fun _ => padStage accept caps cs)

/-- Stage for `(?P<sign>\+)?`. -/
def signStage (accept : List Char → Bool) (caps : SpecCaptures) (cs : List Char) :
    Option (SpecCaptures × List Char) :=
  (match cs with
   | '+' :: rest => reprStage accept { caps with sign := some ['+'] } rest
   | _ => none).orElse
  (fun _ => reprStage accept caps cs)

/-- Stage for `(?P<align>[<^>])?`. -/
def alignStage (accept : List Char → Bool) (caps : SpecCaptures) (cs : List Char) :
    Option (SpecCaptures × List Char) :=
  (match cs with
   | c :: rest =>
     if isAlignChar c then signStage accept { caps with align := some [c] } rest
     else none
   | [] => none).orElse
  (fun _ => signStage accept caps cs)

/-- One leftmost-first match of `SPEC_REGEX_FRAG` against `cs`, whose tail
must satisfy `accept`; yields the captures and the unconsumed suffix. -/
def specFragMatch (cs : List Char) (accept : List Char → Bool) :
    Option (SpecCaptures × List Char) :=
  alignStage accept SpecCaptures.empty cs

/-! ## The placeholder regular expression (`ARG_RE`, src/parser.rs)

`^\{ (?:(?P<index>\d+)|(?P<name>[[:alpha:]][[:alnum:]]*))? (?: : SPEC_REGEX_FRAG )? \}` -/

/-- The head capture of a placeholder: explicit index, explicit name, or neither. -/
inductive HeadCap where
  | implicit
  | index (ds : List Char)
  | name (cs : List Char)
deriving DecidableEq

/-- Match of the `(?:(?P<index>\d+)|(?P<name>[[:alpha:]][[:alnum:]]*))?` group.
Deterministic: a shorter-than-maximal run would leave a digit or alphanumeric
character in front, which neither `:` nor `\}` (the only regex elements that
can follow) matches, and the same argument rules out the empty-group
fallback when a digit or ASCII letter is in front. -/
def headMatch (cs : List Char) : HeadCap × List Char :=
  match cs with
  | c :: _ =>
    if c.isDigit then
      let ds := cs.takeWhile Char.isDigit
      (HeadCap.index ds, cs.drop ds.length)
    else if c.isAlpha then
      let as := cs.takeWhile Char.isAlphanum
      (HeadCap.name as, cs.drop as.length)
    else (HeadCap.implicit, cs)
  | [] => (HeadCap.implicit, cs)

/-- A successful `ARG_RE` match: the head capture, the specifier captures,
and the suffix left after the closing brace. -/
structure ArgMatch where
  head : HeadCap
  caps : SpecCaptures
  restAfter : List Char
deriving DecidableEq

/-- `ARG_RE.captures(unparsed)`: anchored leftmost-first match of the
placeholder grammar.  When the optional `(?: : spec)?` group is present its
fragment must run up to a closing brace; when the inner match fails, skipping
the group would leave the `:` for `\}`, which cannot match, so the whole
match fails. -/
def argRegexMatch (cs : List Char) : Option ArgMatch :=
  match cs with
  | '{' :: cs1 =>
    match (headMatch cs1).2 with
    | ':' :: cs3 =>
      match specFragMatch cs3 (fun rest => rest.head? == some '}') with
      | some (caps, rest) => some ⟨(headMatch cs1).1, caps, rest.drop 1⟩
      | none => none
    | '}' :: cs3 => some ⟨(headMatch cs1).1, SpecCaptures.empty, cs3⟩
    | _ => none
  | _ => none

/-! ## Values and argument sources (src/argument.rs, trait `FormatArgument`,
`ConvertToSize`, `PositionalArguments`, `NamedArguments`) -/

/-- The collaborator contract of a formattable value: the support predicate,
the eight elementary renderers, and the `ConvertToSize` conversion (a
separate trait in the source, bundled here for convenience).  Each renderer
receives the full specifier because the source's `write!` dispatch passes
width, padding, etc. to the value's `std::fmt` implementation through the
formatter; a renderer's `Option.none` models `Err(fmt::Error)`. -/
structure FormatArgument (V : Type) where
  supports_format : V → Specifier → Bool
  fmt_display : V → Specifier → Option (List Char)
  fmt_debug : V → Specifier → Option (List Char)
  fmt_octal : V → Specifier → Option (List Char)
  fmt_lower_hex : V → Specifier → Option (List Char)
  fmt_upper_hex : V → Specifier → Option (List Char)
  fmt_binary : V → Specifier → Option (List Char)
  fmt_lower_exp : V → Specifier → Option (List Char)
  fmt_upper_exp : V → Specifier → Option (List Char)
  convert : V → Except Unit Nat

/-- `format_value` (generated in src/codegen.rs): dispatch on the resolved
format kind to one elementary renderer. -/
def format_value {V : Type} (fa : FormatArgument V) (spec : Specifier) (v : V) :
    Option (List Char) :=
  match spec.format with
  | Format.display => fa.fmt_display v spec
  | Format.debug => fa.fmt_debug v spec
  | Format.octal => fa.fmt_octal v spec
  | Format.lowerHex => fa.fmt_lower_hex v spec
  | Format.upperHex => fa.fmt_upper_hex v spec
  | Format.binary => fa.fmt_binary v spec
  | Format.lowerExp => fa.fmt_lower_exp v spec
  | Format.upperExp => fa.fmt_upper_exp v spec

/-- A segment of the parsed formatting string.  A `substitution` is only ever
built through `Substitution::new`, i.e. after the support check. -/
inductive Segment (V : Type) where
  | text (s : List Char)
  | substitution (spec : Specifier) (value : V)
deriving DecidableEq

/-- `Parser` (src/parser.rs): the remaining input, the byte count consumed so
far, the positional store (slice-backed), the named store, and the positional
iterator.  The value-type dictionary rides along as `fa`. -/
structure Parser (V : Type) where
  fa : FormatArgument V
  unparsed : List Char
  parsed_len : Nat
  positional : List V
  named : List Char → Option V
  positional_iter : List V

/-- `Parser::new`. -/
def Parser.new {V : Type} (fa : FormatArgument V) (format : List Char)
    (positional : List V) (named : List Char → Option V) : Parser V :=
  ⟨fa, format, 0, positional, named, positional⟩

/-- UTF-8 byte length of a character sequence. -/
def utf8Len (cs : List Char) : Nat := (cs.map Char.utf8Size).sum

/-- `advance_and_return`: consume `n` characters, adding their byte length to
`parsed_len`. -/
def Parser.advance {V : Type} (p : Parser V) (n : Nat) : Parser V :=
  { p with unparsed := p.unparsed.drop n,
           parsed_len := p.parsed_len + utf8Len (p.unparsed.take n) }

/-- `Parser::error`: discard the rest of the input. -/
def Parser.error {V : Type} (p : Parser V) : Parser V :=
  { p with unparsed := [] }

/-- `ArgumentSource::next_argument` for `Parser`: pop the positional iterator. -/
def Parser.next_argument {V : Type} (p : Parser V) : Option V × Parser V :=
  match p.positional_iter with
  | [] => (none, p)
  | v :: rest => (some v, { p with positional_iter := rest })

/-- `ArgumentSource::lookup_argument_by_index` for `Parser` (random access,
`&self`: reads the positional store, never the iterator). -/
def Parser.lookup_argument_by_index {V : Type} (p : Parser V) (idx : Nat) : Option V :=
  p.positional.get? idx

/-- `ArgumentSource::lookup_argument_by_name` for `Parser` (`&self`). -/
def Parser.lookup_argument_by_name {V : Type} (p : Parser V) (name : List Char) : Option V :=
  p.named name

/-! ## Size and specifier resolution (src/parser.rs) -/

/-- Value of an ASCII digit character. -/
def decDigit (c : Char) : Nat := c.toNat - 48

/-- Value of an ASCII digit string read left to right. -/
def decValue (cs : List Char) : Nat := cs.foldl (fun a c => 10 * a + decDigit c) 0

/-- `str::parse::<usize>` on the digit strings the regexes can produce:
requires a non-empty all-digit string whose value fits in 64 bits (`usize`
overflow makes the source's `parse` fail). -/
def parseNatAscii (cs : List Char) : Option Nat :=
  if cs ≠ [] ∧ cs.all Char.isDigit = true ∧ decValue cs < 2 ^ 64 then some (decValue cs)
  else none

/-- `parse_size`: resolve a width/precision token.  The outer `Option.none`
models the panic of the unguarded `text.as_bytes()[0]` when the remainder
before the `$` is empty; every other outcome is `some` of the source's
`Result`. -/
def parse_size {V : Type} (text : List Char) (p : Parser V) : Option (Except Unit Nat) :=
  if text.getLast? = some '$' then
    match text.dropLast.head? with
    | none => none
    | some c =>
      some (match (if c.isDigit then
                     (parseNatAscii text.dropLast).bind
                       (fun idx => p.lookup_argument_by_index idx)
                   else p.lookup_argument_by_name text.dropLast) with
            | none => Except.error ()
            | some v => p.fa.convert v)
  else
    some (match parseNatAscii text with
          | some n => Except.ok n
          | none => Except.error ())

/-- `Parseable for Width`. -/
def Width.parse {V : Type} (capture : Option (List Char)) (p : Parser V) :
    Option (Except Unit Width) :=
  match capture.getD [] with
  | [] => some (Except.ok Width.auto)
  | s => (parse_size s p).map (fun r => r.map (fun w => Width.atLeast w))

/-- `Parseable for Precision`: the `*` token consumes the next positional
argument through the cursor; everything else reads without advancing it. -/
def Precision.parse {V : Type} (capture : Option (List Char)) (p : Parser V) :
    Option (Except Unit Precision × Parser V) :=
  match capture.getD [] with
  | [] => some (Except.ok Precision.auto, p)
  | ['*'] =>
    match p.next_argument with
    | (none, p') => some (Except.error (), p')
    | (some v, p') => some ((p.fa.convert v).map (fun n => Precision.exactly n), p')
  | s => (parse_size s p).map (fun r => (r.map (fun n => Precision.exactly n), p))

/-- `parse_specifier_captures`: convert each capture in field order, aborting
at the first failure (so a failed width leaves the precision's `*` unread,
mirroring the `?` operators in the struct literal). -/
def parse_specifier_captures {V : Type} (caps : SpecCaptures) (p : Parser V) :
    Option (Except Unit Specifier × Parser V) :=
  match Align.tryFrom (caps.align.getD []) with
  | Except.error _ => some (Except.error (), p)
  | Except.ok al =>
    match Sign.tryFrom (caps.sign.getD []) with
    | Except.error _ => some (Except.error (), p)
    | Except.ok sg =>
      match Repr.tryFrom (caps.repr.getD []) with
      | Except.error _ => some (Except.error (), p)
      | Except.ok rp =>
        match Pad.tryFrom (caps.pad.getD []) with
        | Except.error _ => some (Except.error (), p)
        | Except.ok pa =>
          match Width.parse caps.width p with
          | none => none
          | some (Except.error _) => some (Except.error (), p)
          | some (Except.ok w) =>
            match Precision.parse caps.precision p with
            | none => none
            | some (Except.error _, p') => some (Except.error (), p')
            | some (Except.ok pr, p') =>
              match Format.tryFrom (caps.format.getD []) with
              | Except.error _ => some (Except.error (), p')
              | Except.ok fm => some (Except.ok ⟨al, sg, rp, pa, w, pr, fm⟩, p')

/-- `parse_specifier`: anchored-at-start match of the bare specifier fragment
(`SPEC_RE`), then capture conversion.  The `none` branch of the regex match
is the source's `Err(())` on a failed match. -/
def parse_specifier {V : Type} (spec_str : List Char) (p : Parser V) :
    Option (Except Unit Specifier × Parser V) :=
  match specFragMatch spec_str (fun _ => true) with
  | none => some (Except.error (), p)
  | some (caps, _) => parse_specifier_captures caps p

/-! ## The segment tokenizer (`Parser` iterator, src/parser.rs) -/

/-- One iterator step's outcome: `done` is `None`, `item` is
`Some(Ok/Err)` with the successor state, `panicked` models a Rust panic. -/
inductive StepResult (V : Type) where
  | done
  | panicked
  | item (r : Except Nat (Segment V)) (next : Parser V)

/-- The error step: clear the input, report the current byte offset. -/
def Parser.errStep {V : Type} (p : Parser V) : StepResult V :=
  StepResult.item (Except.error p.parsed_len) p.error

/-- `Parser::lookup_argument`: explicit index (random access), explicit name
(named lookup), or the positional cursor. -/
def Parser.lookup_argument {V : Type} (p : Parser V) (head : HeadCap) :
    Option V × Parser V :=
  match head with
  | HeadCap.index ds => ((parseNatAscii ds).bind (fun idx => p.lookup_argument_by_index idx), p)
  | HeadCap.name cs => (p.lookup_argument_by_name cs, p)
  | HeadCap.implicit => p.next_argument

/-- `Parser::parse_substitution`: match `ARG_RE`, resolve the specifier
(possibly consuming positional arguments for `*`), then resolve the
placeholder's own value, then check support; any failure is `error()` at the
placeholder's start offset. -/
def Parser.parse_substitution {V : Type} (p : Parser V) : StepResult V :=
  match argRegexMatch p.unparsed with
  | none => p.errStep
  | some m =>
    match parse_specifier_captures m.caps p with
    | none => StepResult.panicked
    | some (Except.error _, p') => p'.errStep
    | some (Except.ok spec, p') =>
      match p'.lookup_argument m.head with
      | (none, p2) => p2.errStep
      | (some v, p2) =>
        if p.fa.supports_format v spec then
          StepResult.item (Except.ok (Segment.substitution spec v))
            (p2.advance (p.unparsed.length - m.restAfter.length))
        else p2.errStep

/-- `Parser::parse_braces`: escaped double braces or a placeholder. -/
def Parser.parse_braces {V : Type} (p : Parser V) : StepResult V :=
  match p.unparsed with
  | [] => p.errStep
  | [_] => p.errStep
  | c1 :: c2 :: _ =>
    if c1 = c2 then StepResult.item (Except.ok (Segment.text [c1])) (p.advance 2)
    else p.parse_substitution

/-- `Iterator::next` for `Parser`. -/
def Parser.next {V : Type} (p : Parser V) : StepResult V :=
  if p.unparsed.isEmpty then StepResult.done
  else
    match p.unparsed.findIdx? (fun c => c = '{' || c = '}') with
    | none => StepResult.item (Except.ok (Segment.text p.unparsed)) (p.advance p.unparsed.length)
    | some 0 => p.parse_braces
    | some i => StepResult.item (Except.ok (Segment.text (p.unparsed.take i))) (p.advance i)

/-- Decidable equality for `Except` (not provided by the library here). -/
instance {ε α : Type _} [DecidableEq ε] [DecidableEq α] : DecidableEq (Except ε α) := fun a b =>
  match a, b with
  | Except.error e, Except.error f =>
    if h : e = f then isTrue (by rw [h]) else isFalse (fun hh => h (Except.error.injEq .. ▸ hh))
  | Except.error _, Except.ok _ => isFalse (fun h => Except.noConfusion h)
  | Except.ok _, Except.error _ => isFalse (fun h => Except.noConfusion h)
  | Except.ok x, Except.ok y =>
    if h : x = y then isTrue (by rw [h]) else isFalse (fun hh => h (Except.ok.injEq .. ▸ hh))

/-- Outcome of driving the iterator to completion (`collect`): `fuelOut`
never occurs when the fuel exceeds the input length (proved below). -/
inductive RunResult (V : Type) where
  | fuelOut
  | panicked
  | ok (r : Except Nat (List (Segment V)))
deriving DecidableEq

/-- Drive the iterator with fuel, collecting segments and stopping at the
first error, as `collect::<Result<Vec<_>, usize>>` does. -/
def Parser.runFuel {V : Type} : Nat → Parser V → RunResult V
  | 0, _ => RunResult.fuelOut
  | fuel + 1, p =>
    match p.next with
    | StepResult.done => RunResult.ok (Except.ok [])
    | StepResult.panicked => RunResult.panicked
    | StepResult.item (Except.error e) _ => RunResult.ok (Except.error e)
    | StepResult.item (Except.ok s) p' =>
      match Parser.runFuel fuel p' with
      | RunResult.ok (Except.ok rest) => RunResult.ok (Except.ok (s :: rest))
      | r => r

/-- `ParsedFormat::parse`: run the parser over the whole template.  The fuel
`length + 1` is sufficient because every yielded segment consumes input. -/
def ParsedFormat.parse {V : Type} (fa : FormatArgument V) (format : List Char)
    (positional : List V) (named : List Char → Option V) : RunResult V :=
  Parser.runFuel (format.length + 1) (Parser.new fa format positional named)

/-- `impl fmt::Display for Segment`. -/
def Segment.render {V : Type} (fa : FormatArgument V) : Segment V → Option (List Char)
  | Segment.text s => some s
  | Segment.substitution spec v => format_value fa spec v

/-- `impl fmt::Display for ParsedFormat`: render the segments in order,
aborting at the first formatting error. -/
def renderSegments {V : Type} (fa : FormatArgument V) : List (Segment V) → Option (List Char)
  | [] => some []
  | s :: rest =>
    match Segment.render fa s, renderSegments fa rest with
    | some a, some b => some (a ++ b)
    | _, _ => none

/-! ## The test suite's `Variant` value type (tests/common/mod.rs; the f64
payload of `Float` is omitted because neither `supports_format` nor the
`usize` conversion reads it, and no theorem below renders a `Variant`). -/

/-- `enum Variant { Int(i32), Float(f64) }`. -/
inductive Variant where
  | int (n : Int)
  | float
deriving DecidableEq

/-- `Variant::supports_format`: integers support everything, floats only
display, debug and the exponent formats. -/
def Variant.supports_format : Variant → Specifier → Bool
  | Variant.int _, _ => true
  | Variant.float, spec =>
    match spec.format with
    | Format.display => true
    | Format.debug => true
    | Format.lowerExp => true
    | Format.upperExp => true
    | _ => false

/-- `TryInto<usize> for &Variant`: a non-negative integer converts, a float
does not. -/
def Variant.convert : Variant → Except Unit Nat
  | Variant.int n => if 0 ≤ n then Except.ok n.toNat else Except.error ()
  | Variant.float => Except.error ()

/-- The `FormatArgument` dictionary for `Variant`.  The renderers delegate to
`std::fmt` in the source and are irrelevant to every theorem below (which
only parse); they are modelled as the success/failure pattern of
tests/common/mod.rs with an unspecified rendering. -/
def variantFA : FormatArgument Variant :=
  { supports_format := Variant.supports_format
    fmt_display := fun _ _ => some []
    fmt_debug := fun _ _ => some []
    fmt_octal := fun v _ => match v with | Variant.int _ => some [] | Variant.float => none
    fmt_lower_hex := fun v _ => match v with | Variant.int _ => some [] | Variant.float => none
    fmt_upper_hex := fun v _ => match v with | Variant.int _ => some [] | Variant.float => none
    fmt_binary := fun v _ => match v with | Variant.int _ => some [] | Variant.float => none
    fmt_lower_exp := fun _ _ => some []
    fmt_upper_exp := fun _ _ => some []
    convert := Variant.convert }

/-- `NoNamedArguments`. -/
def noNamed {V : Type} : List Char → Option V := fun _ => none

/-! ## Basic facts about the matcher -/

/-- Splitting an `Option.orElse`. -/
theorem orElse_eq_some_iff {α : Type _} {a : Option α} {b : Unit → Option α} {x : α} :
    a.orElse b = some x ↔ a = some x ∨ (a = none ∧ b () = some x) := by
  cases a <;> simp [Option.orElse]

/-- A successful `findSome?` comes from some list element. -/
theorem findSome?_eq_some_mem {α β : Type _} {f : α → Option β} {l : List α} {b : β}
    (h : l.findSome? f = some b) : ∃ a ∈ l, f a = some b := by
  induction l with
  | nil => simp [List.findSome?] at h
  | cons x xs ih =>
    rw [List.findSome?] at h
    cases hfa : f x with
    | some y =>
      rw [hfa] at h
      simp only [Option.some.injEq] at h
      exact ⟨x, by simp, by rw [hfa, h]⟩
    | none =>
      rw [hfa] at h
      obtain ⟨a, ha, hfa2⟩ := ih h
      exact ⟨a, by simp [ha], hfa2⟩

/-- A width/precision token as the regexes can produce it: non-empty, with a
non-empty body before a trailing `$` (so `parse_size` cannot panic on it). -/
def GoodTok (tok : List Char) : Prop :=
  tok ≠ [] ∧ (tok.getLast? = some '$' → tok.dropLast ≠ [])

/-- Shape of the `width`/`precision` captures of a fragment match. -/
def GoodCaps (caps : SpecCaptures) : Prop :=
  (∀ tok, caps.width = some tok → GoodTok tok) ∧
    (∀ tok, caps.precision = some tok → GoodTok tok)

theorem goodCaps_empty : GoodCaps SpecCaptures.empty := by
  constructor <;> intro tok h <;> simp [SpecCaptures.empty] at h

theorem digitTokenCands_mem {cs : List Char} {tok r : List Char}
    (h : (tok, r) ∈ digitTokenCands cs) : r <:+ cs ∧ GoodTok tok := by
  unfold digitTokenCands at h
  split at h
  · simp at h
  · rename_i hne
    have hall : ∀ x ∈ cs.takeWhile Char.isDigit, Char.isDigit x = true :=
      fun x hx => List.mem_takeWhile_imp hx
    have hnil : cs.takeWhile Char.isDigit ≠ [] := by
      simpa [List.isEmpty_iff] using hne
    have hdollar : (cs.takeWhile Char.isDigit).getLast? ≠ some '$' := by
      intro hlast
      have := hall _ (List.mem_of_mem_getLast? hlast)
      simp [Char.isDigit] at this
    have hdrop : cs.drop (cs.takeWhile Char.isDigit).length <:+ cs := List.drop_suffix _ _
    split at h
    · rename_i r2 hr2
      rcases List.mem_cons.mp h with h | h
      · simp only [Prod.mk.injEq] at h
        obtain ⟨h1, h2⟩ := h
        subst h1; subst h2
        have hsuf : ('$' :: r) <:+ cs := hr2 ▸ hdrop
        refine ⟨(List.tail_suffix ('$' :: r)).trans hsuf, by simp, ?_⟩
        intro _
        simp [List.dropLast_concat, hnil]
      · rcases List.mem_cons.mp h with h | h
        · simp only [Prod.mk.injEq] at h
          obtain ⟨h1, h2⟩ := h
          subst h1; subst h2
          exact ⟨hr2 ▸ hdrop, hnil, fun hl => absurd hl hdollar⟩
        · simp at h
    · rename_i hr2
      rcases List.mem_cons.mp h with h | h
      · simp only [Prod.mk.injEq] at h
        obtain ⟨h1, h2⟩ := h
        subst h1; subst h2
        exact ⟨hdrop, hnil, fun hl => absurd hl hdollar⟩
      · simp at h

theorem nameTokenCands_mem {cs : List Char} {tok r : List Char}
    (h : (tok, r) ∈ nameTokenCands cs) : r <:+ cs ∧ GoodTok tok := by
  unfold nameTokenCands at h
  split at h
  · rename_i c hc
    split at h
    · rename_i halpha
      have hnil : cs.takeWhile Char.isAlphanum ≠ [] := by
        cases cs with
        | nil => simp at hc
        | cons c2 t =>
          simp only [List.head?_cons, Option.some.injEq] at hc
          subst hc
          simp [List.takeWhile, Char.isAlphanum, halpha]
      split at h
      · rename_i r2 hr2
        rcases List.mem_cons.mp h with h | h
        · simp only [Prod.mk.injEq] at h
          obtain ⟨h1, h2⟩ := h
          subst h1; subst h2
          have hsuf : ('$' :: r) <:+ cs :=
            hr2 ▸ List.drop_suffix (cs.takeWhile Char.isAlphanum).length cs
          refine ⟨(List.tail_suffix ('$' :: r)).trans hsuf, by simp, ?_⟩
          intro _
          simp [List.dropLast_concat, hnil]
        · simp at h
      · simp at h
    · simp at h
  · simp at h

theorem widthCands_mem {cs : List Char} {tok r : List Char}
    (h : (tok, r) ∈ widthCands cs) : r <:+ cs ∧ GoodTok tok := by
  unfold widthCands at h
  rcases List.mem_append.mp h with h | h
  · exact digitTokenCands_mem h
  · exact nameTokenCands_mem h

theorem precCands_mem {cs : List Char} {tok r : List Char}
    (h : (tok, r) ∈ precCands cs) : r <:+ cs ∧ GoodTok tok := by
  unfold precCands at h
  rcases List.mem_append.mp h with h | h
  · rcases List.mem_append.mp h with h | h
    · exact digitTokenCands_mem h
    · exact nameTokenCands_mem h
  · split at h
    · rcases List.mem_cons.mp h with h | h
      · simp only [Prod.mk.injEq] at h
        obtain ⟨h1, h2⟩ := h
        subst h1; subst h2
        refine ⟨List.tail_suffix cs, by simp, ?_⟩
        intro hl
        simp at hl
      · simp at h
    · simp at h

/-- An `orElse` whose fallback succeeds is some. -/
theorem orElse_isSome {α : Type _} {a : Option α} {b : Unit → Option α}
    (hb : (b ()).isSome = true) : (a.orElse b).isSome = true := by
  cases a <;> simp [Option.orElse, hb]

theorem fmtStage_spec {accept : List Char → Bool} {caps : SpecCaptures} {cs : List Char}
    {caps' : SpecCaptures} {rest : List Char}
    (h : fmtStage accept caps cs = some (caps', rest)) :
    rest <:+ cs ∧ (GoodCaps caps → GoodCaps caps') := by
  unfold fmtStage at h
  rcases orElse_eq_some_iff.mp h with h | ⟨-, h⟩
  · split at h
    · split at h
      · simp only [Option.some.injEq, Prod.mk.injEq] at h
        obtain ⟨h1, h2⟩ := h
        subst h1; subst h2
        exact ⟨List.suffix_cons _ _, fun hg => ⟨fun tok ht => hg.1 tok ht,
          fun tok ht => hg.2 tok ht⟩⟩
      · exact Option.noConfusion h
    · exact Option.noConfusion h
  · split at h
    · simp only [Option.some.injEq, Prod.mk.injEq] at h
      obtain ⟨h1, h2⟩ := h
      subst h1; subst h2
      exact ⟨List.suffix_rfl, id⟩
    · simp at h

theorem precStage_spec {accept : List Char → Bool} {caps : SpecCaptures} {cs : List Char}
    {caps' : SpecCaptures} {rest : List Char}
    (h : precStage accept caps cs = some (caps', rest)) :
    rest <:+ cs ∧ (GoodCaps caps → GoodCaps caps') := by
  unfold precStage at h
  rcases orElse_eq_some_iff.mp h with h | ⟨-, h⟩
  · split at h
    · obtain ⟨⟨tok, r⟩, htr, heq⟩ := findSome?_eq_some_mem h
      obtain ⟨hsuf, hgood⟩ := precCands_mem htr
      obtain ⟨hsuf2, hpres⟩ := fmtStage_spec heq
      refine ⟨(hsuf2.trans hsuf).trans (List.suffix_cons _ _), ?_⟩
      intro hg
      refine hpres ⟨fun tok2 ht => hg.1 tok2 ht, fun tok2 ht => ?_⟩
      have : some tok = some tok2 := ht
      cases this
      exact hgood
    · simp at h
  · exact fmtStage_spec h

theorem widthStage_spec {accept : List Char → Bool} {caps : SpecCaptures} {cs : List Char}
    {caps' : SpecCaptures} {rest : List Char}
    (h : widthStage accept caps cs = some (caps', rest)) :
    rest <:+ cs ∧ (GoodCaps caps → GoodCaps caps') := by
  unfold widthStage at h
  rcases orElse_eq_some_iff.mp h with h | ⟨-, h⟩
  · obtain ⟨⟨tok, r⟩, htr, heq⟩ := findSome?_eq_some_mem h
    obtain ⟨hsuf, hgood⟩ := widthCands_mem htr
    obtain ⟨hsuf2, hpres⟩ := precStage_spec heq
    refine ⟨hsuf2.trans hsuf, ?_⟩
    intro hg
    refine hpres ⟨fun tok2 ht => ?_, fun tok2 ht => hg.2 tok2 ht⟩
    have : some tok = some tok2 := ht
    cases this
    exact hgood
  · exact precStage_spec h

theorem padStage_spec {accept : List Char → Bool} {caps : SpecCaptures} {cs : List Char}
    {caps' : SpecCaptures} {rest : List Char}
    (h : padStage accept caps cs = some (caps', rest)) :
    rest <:+ cs ∧ (GoodCaps caps → GoodCaps caps') := by
  unfold padStage at h
  rcases orElse_eq_some_iff.mp h with h | ⟨-, h⟩
  · split at h
    · obtain ⟨hsuf, hpres⟩ := widthStage_spec h
      exact ⟨hsuf.trans (List.suffix_cons _ _), fun hg =>
        hpres ⟨fun tok ht => hg.1 tok ht, fun tok ht => hg.2 tok ht⟩⟩
    · simp at h
  · exact widthStage_spec h

theorem reprStage_spec {accept : List Char → Bool} {caps : SpecCaptures} {cs : List Char}
    {caps' : SpecCaptures} {rest : List Char}
    (h : reprStage accept caps cs = some (caps', rest)) :
    rest <:+ cs ∧ (GoodCaps caps → GoodCaps caps') := by
  unfold reprStage at h
  rcases orElse_eq_some_iff.mp h with h | ⟨-, h⟩
  · split at h
    · obtain ⟨hsuf, hpres⟩ := padStage_spec h
      exact ⟨hsuf.trans (List.suffix_cons _ _), fun hg =>
        hpres ⟨fun tok ht => hg.1 tok ht, fun tok ht => hg.2 tok ht⟩⟩
    · simp at h
  · exact padStage_spec h

theorem signStage_spec {accept : List Char → Bool} {caps : SpecCaptures} {cs : List Char}
    {caps' : SpecCaptures} {rest : List Char}
    (h : signStage accept caps cs = some (caps', rest)) :
    rest <:+ cs ∧ (GoodCaps caps → GoodCaps caps') := by
  unfold signStage at h
  rcases orElse_eq_some_iff.mp h with h | ⟨-, h⟩
  · split at h
    · obtain ⟨hsuf, hpres⟩ := reprStage_spec h
      exact ⟨hsuf.trans (List.suffix_cons _ _), fun hg =>
        hpres ⟨fun tok ht => hg.1 tok ht, fun tok ht => hg.2 tok ht⟩⟩
    · simp at h
  · exact reprStage_spec h

theorem alignStage_spec {accept : List Char → Bool} {caps : SpecCaptures} {cs : List Char}
    {caps' : SpecCaptures} {rest : List Char}
    (h : alignStage accept caps cs = some (caps', rest)) :
    rest <:+ cs ∧ (GoodCaps caps → GoodCaps caps') := by
  unfold alignStage at h
  rcases orElse_eq_some_iff.mp h with h | ⟨-, h⟩
  · split at h
    · split at h
      · obtain ⟨hsuf, hpres⟩ := signStage_spec h
        exact ⟨hsuf.trans (List.suffix_cons _ _), fun hg =>
          hpres ⟨fun tok ht => hg.1 tok ht, fun tok ht => hg.2 tok ht⟩⟩
      · exact Option.noConfusion h
    · exact Option.noConfusion h
  · exact signStage_spec h

/-- A fragment match consumes a prefix: what remains is a suffix of the input. -/
theorem specFragMatch_suffix {cs : List Char} {accept : List Char → Bool}
    {caps : SpecCaptures} {rest : List Char}
    (h : specFragMatch cs accept = some (caps, rest)) : rest <:+ cs :=
  (alignStage_spec h).1

/-- A fragment match only produces well-shaped width/precision tokens. -/
theorem specFragMatch_good {cs : List Char} {accept : List Char → Bool}
    {caps : SpecCaptures} {rest : List Char}
    (h : specFragMatch cs accept = some (caps, rest)) : GoodCaps caps :=
  (alignStage_spec h).2 goodCaps_empty

theorem fmtStage_true_isSome (caps : SpecCaptures) (cs : List Char) :
    (fmtStage (fun _ => true) caps cs).isSome = true := by
  unfold fmtStage
  exact orElse_isSome (by simp)

theorem precStage_true_isSome (caps : SpecCaptures) (cs : List Char) :
    (precStage (fun _ => true) caps cs).isSome = true := by
  unfold precStage
  exact orElse_isSome (fmtStage_true_isSome caps cs)

theorem widthStage_true_isSome (caps : SpecCaptures) (cs : List Char) :
    (widthStage (fun _ => true) caps cs).isSome = true := by
  unfold widthStage
  exact orElse_isSome (precStage_true_isSome caps cs)

theorem padStage_true_isSome (caps : SpecCaptures) (cs : List Char) :
    (padStage (fun _ => true) caps cs).isSome = true := by
  unfold padStage
  exact orElse_isSome (widthStage_true_isSome caps cs)

theorem reprStage_true_isSome (caps : SpecCaptures) (cs : List Char) :
    (reprStage (fun _ => true) caps cs).isSome = true := by
  unfold reprStage
  exact orElse_isSome (padStage_true_isSome caps cs)

theorem signStage_true_isSome (caps : SpecCaptures) (cs : List Char) :
    (signStage (fun _ => true) caps cs).isSome = true := by
  unfold signStage
  exact orElse_isSome (reprStage_true_isSome caps cs)

/-- The standalone specifier regex (all groups optional, anchored only at the
start) matches every input. -/
theorem specFragMatch_true_isSome (cs : List Char) :
    (specFragMatch cs (fun _ => true)).isSome = true := by
  unfold specFragMatch alignStage
  exact orElse_isSome (signStage_true_isSome SpecCaptures.empty cs)

/-! ## Correctness of the decimal rendering -/

theorem decChar_isDigit (n : Nat) : (decChar n).isDigit = true := by
  have hm : n % 10 < 10 := Nat.mod_lt _ (by norm_num)
  unfold decChar
  revert hm
  generalize n % 10 = m
  intro hm
  interval_cases m <;> decide

theorem decDigit_decChar (n : Nat) : decDigit (decChar n) = n % 10 := by
  have hm : n % 10 < 10 := Nat.mod_lt _ (by norm_num)
  unfold decChar decDigit
  revert hm
  generalize n % 10 = m
  intro hm
  interval_cases m <;> decide

theorem decChar_eq_zero_iff (n : Nat) : decChar n = '0' ↔ n % 10 = 0 := by
  have hm : n % 10 < 10 := Nat.mod_lt _ (by norm_num)
  unfold decChar
  revert hm
  generalize n % 10 = m
  intro hm
  interval_cases m <;> decide

theorem natToDecimalAux_spec : ∀ (fuel n : Nat) (acc : List Char), n < fuel →
    ∃ ds, natToDecimalAux fuel n acc = ds ++ acc ∧ ds ≠ [] ∧
      (∀ c ∈ ds, c.isDigit = true) ∧
      (∀ a, List.foldl (fun a c => 10 * a + decDigit c) a ds = a * 10 ^ ds.length + n) ∧
      n < 10 ^ ds.length ∧
      (∀ c, ds.head? = some c → c = '0' → n = 0) := by
  intro fuel
  induction fuel with
  | zero => intro n acc h; omega
  | succ fuel ih =>
    intro n acc h
    rw [natToDecimalAux]
    by_cases h10 : n < 10
    · rw [if_pos h10]
      refine ⟨[decChar n], rfl, by simp, by simp [decChar_isDigit], ?_, by simpa, ?_⟩
      · intro a
        simp only [List.foldl_cons, List.foldl_nil, List.length_singleton, pow_one]
        rw [decDigit_decChar]
        omega
      · intro c hc hzero
        simp only [List.head?_cons, Option.some.injEq] at hc
        subst hc
        have := (decChar_eq_zero_iff n).mp hzero
        omega
    · rw [if_neg h10]
      have hdiv : n / 10 < n := Nat.div_lt_self (by omega) (by norm_num)
      have hlt : n / 10 < fuel := by omega
      obtain ⟨ds, heq, hne, hdig, hfold, hbound, hhead⟩ := ih (n / 10) (decChar n :: acc) hlt
      refine ⟨ds ++ [decChar n], by rw [heq]; simp, by simp, ?_, ?_, ?_, ?_⟩
      · intro c hc
        rcases List.mem_append.mp hc with hc | hc
        · exact hdig c hc
        · simp only [List.mem_singleton] at hc
          subst hc
          exact decChar_isDigit n
      · intro a
        rw [List.foldl_append]
        simp only [List.foldl_cons, List.foldl_nil, hfold a, List.length_append,
          List.length_singleton, decDigit_decChar]
        have hsplit : 10 * (n / 10) + n % 10 = n := Nat.div_add_mod n 10
        have hpow : 10 ^ (ds.length + 1) = 10 ^ ds.length * 10 := pow_succ 10 ds.length
        nlinarith [hsplit, hpow]
      · have hpow : 10 ^ (ds.length + 1) = 10 ^ ds.length * 10 := pow_succ 10 ds.length
        have hsplit : 10 * (n / 10) + n % 10 = n := Nat.div_add_mod n 10
        have hmod : n % 10 < 10 := Nat.mod_lt _ (by norm_num)
        simp only [List.length_append, List.length_singleton]
        nlinarith [hbound]
      · intro c hc hzero
        rw [List.head?_append_of_ne_nil _ hne] at hc
        have := hhead c hc hzero
        omega

theorem natToDecimal_spec (n : Nat) :
    natToDecimal n ≠ [] ∧ (∀ c ∈ natToDecimal n, c.isDigit = true) ∧
      decValue (natToDecimal n) = n ∧
      (∀ c, (natToDecimal n).head? = some c → c = '0' → n = 0) := by
  obtain ⟨ds, heq, hne, hdig, hfold, hbound, hhead⟩ :=
    natToDecimalAux_spec (n + 1) n [] (by omega)
  unfold natToDecimal
  rw [heq, List.append_nil]
  refine ⟨hne, hdig, ?_, hhead⟩
  unfold decValue
  rw [hfold 0]
  omega

/-- The rendered width/precision digits parse back to the same number. -/
theorem parseNatAscii_natToDecimal {n : Nat} (h : n < 2 ^ 64) :
    parseNatAscii (natToDecimal n) = some n := by
  obtain ⟨hne, hdig, hval, _⟩ := natToDecimal_spec n
  unfold parseNatAscii
  rw [if_pos]
  · rw [hval]
  · exact ⟨hne, List.all_eq_true.mpr hdig, by rw [hval]; exact h⟩

/-! ## State-threading facts of the tokenizer -/

/-- A successful `findIdx?` returns an index within bounds. -/
theorem findIdx?_lt_length {α : Type _} {p : α → Bool} {l : List α} {i : Nat}
    (h : l.findIdx? p = some i) : i < l.length := by
  induction l generalizing i with
  | nil => simp [List.findIdx?] at h
  | cons x xs ih =>
    rw [List.findIdx?_cons] at h
    by_cases hx : p x
    · simp [hx] at h
      simp [← h]
    · simp [hx] at h
      obtain ⟨j, hj, hji⟩ := h
      have := ih hj
      simp only [List.length_cons]
      omega

/-- Everything the specifier/lookup machinery can possibly leave unchanged:
all parser fields except the positional iterator. -/
def SameCore {V : Type} (p q : Parser V) : Prop :=
  q.fa = p.fa ∧ q.unparsed = p.unparsed ∧ q.parsed_len = p.parsed_len ∧
    q.positional = p.positional ∧ q.named = p.named

theorem sameCore_refl {V : Type} (p : Parser V) : SameCore p p :=
  ⟨rfl, rfl, rfl, rfl, rfl⟩

theorem next_argument_state {V : Type} (p : Parser V) : SameCore p (p.next_argument).2 := by
  unfold Parser.next_argument
  cases p.positional_iter <;> exact ⟨rfl, rfl, rfl, rfl, rfl⟩

theorem precision_parse_state {V : Type} {capture : Option (List Char)} {p : Parser V}
    {r : Except Unit Precision} {p' : Parser V}
    (h : Precision.parse capture p = some (r, p')) :
    SameCore p p' ∧ (capture ≠ some ['*'] → p' = p) := by
  unfold Precision.parse at h
  split at h
  · simp only [Option.some.injEq, Prod.mk.injEq] at h
    exact ⟨by rw [← h.2]; exact sameCore_refl p, fun _ => h.2.symm⟩
  · rename_i hstar
    have hcap : capture = some ['*'] := by
      cases capture with
      | none => simp at hstar
      | some tok => simp only [Option.getD_some] at hstar; rw [hstar]
    split at h <;>
      (rename_i hna
       simp only [Option.some.injEq, Prod.mk.injEq] at h
       refine ⟨?_, fun hne => absurd hcap hne⟩
       have := next_argument_state p
       rw [hna] at this
       exact h.2 ▸ this)
  · rw [Option.map_eq_some'] at h
    obtain ⟨a, ha, heq⟩ := h
    obtain ⟨h1, h2⟩ := Prod.mk.injEq .. ▸ heq
    exact ⟨by rw [← h2]; exact sameCore_refl p, fun _ => h2.symm⟩

theorem sameCore_trans {V : Type} {p q r : Parser V} (h1 : SameCore p q) (h2 : SameCore q r) :
    SameCore p r :=
  ⟨h2.1.trans h1.1, h2.2.1.trans h1.2.1, h2.2.2.1.trans h1.2.2.1,
    h2.2.2.2.1.trans h1.2.2.2.1, h2.2.2.2.2.trans h1.2.2.2.2⟩

theorem parse_specifier_captures_state {V : Type} {caps : SpecCaptures} {p : Parser V}
    {r : Except Unit Specifier} {p' : Parser V}
    (h : parse_specifier_captures caps p = some (r, p')) :
    SameCore p p' ∧ (caps.precision ≠ some ['*'] → p' = p) := by
  unfold parse_specifier_captures at h
  split at h
  · simp only [Option.some.injEq, Prod.mk.injEq] at h
    exact ⟨by rw [← h.2]; exact sameCore_refl p, fun _ => h.2.symm⟩
  · split at h
    · simp only [Option.some.injEq, Prod.mk.injEq] at h
      exact ⟨by rw [← h.2]; exact sameCore_refl p, fun _ => h.2.symm⟩
    · split at h
      · simp only [Option.some.injEq, Prod.mk.injEq] at h
        exact ⟨by rw [← h.2]; exact sameCore_refl p, fun _ => h.2.symm⟩
      · split at h
        · simp only [Option.some.injEq, Prod.mk.injEq] at h
          exact ⟨by rw [← h.2]; exact sameCore_refl p, fun _ => h.2.symm⟩
        · split at h
          · exact Option.noConfusion h
          · simp only [Option.some.injEq, Prod.mk.injEq] at h
            exact ⟨by rw [← h.2]; exact sameCore_refl p, fun _ => h.2.symm⟩
          · split at h
            · exact Option.noConfusion h
            · rename_i p2 hprec
              simp only [Option.some.injEq, Prod.mk.injEq] at h
              obtain ⟨hps, hpe⟩ := precision_parse_state hprec
              exact ⟨h.2 ▸ hps, fun hne => h.2 ▸ hpe hne⟩
            · rename_i pr p2 hprec
              split at h
              · simp only [Option.some.injEq, Prod.mk.injEq] at h
                obtain ⟨hps, hpe⟩ := precision_parse_state hprec
                exact ⟨h.2 ▸ hps, fun hne => h.2 ▸ hpe hne⟩
              · simp only [Option.some.injEq, Prod.mk.injEq] at h
                obtain ⟨hps, hpe⟩ := precision_parse_state hprec
                exact ⟨h.2 ▸ hps, fun hne => h.2 ▸ hpe hne⟩

theorem lookup_argument_state {V : Type} {p : Parser V} {head : HeadCap}
    {v : Option V} {p' : Parser V} (h : p.lookup_argument head = (v, p')) :
    SameCore p p' ∧ (head ≠ HeadCap.implicit → p' = p) := by
  unfold Parser.lookup_argument at h
  cases head with
  | index ds =>
    obtain ⟨h1, h2⟩ := Prod.mk.injEq .. ▸ h
    exact ⟨by rw [← h2]; exact sameCore_refl p, fun _ => h2.symm⟩
  | name cs =>
    obtain ⟨h1, h2⟩ := Prod.mk.injEq .. ▸ h
    exact ⟨by rw [← h2]; exact sameCore_refl p, fun _ => h2.symm⟩
  | implicit =>
    have h2 : p.next_argument = (v, p') := h
    have := next_argument_state p
    rw [h2] at this
    exact ⟨this, fun hne => absurd rfl hne⟩

/-! ## Absence of panics in size parsing -/

theorem parse_size_isSome {V : Type} {text : List Char} (p : Parser V) (h : GoodTok text) :
    (parse_size text p).isSome = true := by
  unfold parse_size
  split
  · rename_i hlast
    cases hcb : text.dropLast.head? with
    | none =>
      rw [List.head?_eq_none_iff] at hcb
      exact absurd hcb (h.2 hlast)
    | some c => simp [hcb]
  · simp

theorem width_parse_isSome {V : Type} {capture : Option (List Char)} (p : Parser V)
    (h : ∀ tok, capture = some tok → GoodTok tok) :
    (Width.parse capture p).isSome = true := by
  unfold Width.parse
  split
  · simp
  · rename_i s heq
    have hgood : GoodTok (capture.getD []) := by
      cases capture with
      | none => exact absurd rfl heq
      | some tok => exact h tok rfl
    cases hps : parse_size (capture.getD []) p with
    | none =>
      have := parse_size_isSome p hgood
      rw [hps] at this
      simp at this
    | some a => simp [hps]

theorem precision_parse_isSome {V : Type} {capture : Option (List Char)} (p : Parser V)
    (h : ∀ tok, capture = some tok → GoodTok tok) :
    (Precision.parse capture p).isSome = true := by
  unfold Precision.parse
  split
  · simp
  · rcases hna : p.next_argument with ⟨v, p2⟩
    cases v <;> simp [hna]
  · rename_i hne1 hne2
    have hgood : GoodTok (capture.getD []) := by
      cases capture with
      | none => exact absurd rfl hne1
      | some tok => exact h tok rfl
    cases hps : parse_size (capture.getD []) p with
    | none =>
      have := parse_size_isSome p hgood
      rw [hps] at this
      simp at this
    | some a => simp [hps]

theorem parse_specifier_captures_isSome {V : Type} {caps : SpecCaptures} (p : Parser V)
    (hg : GoodCaps caps) : (parse_specifier_captures caps p).isSome = true := by
  unfold parse_specifier_captures
  split
  · simp
  · split
    · simp
    · split
      · simp
      · split
        · simp
        · split
          · rename_i hw
            have := width_parse_isSome p hg.1
            rw [hw] at this
            simp at this
          · simp
          · split
            · rename_i hp
              have := precision_parse_isSome p hg.2
              rw [hp] at this
              simp at this
            · simp
            · split <;> simp

/-! ## The one-step behaviour of the tokenizer -/

theorem headMatch_suffix (cs : List Char) : (headMatch cs).2 <:+ cs := by
  unfold headMatch
  cases cs with
  | nil => exact List.suffix_rfl
  | cons c t =>
    dsimp only
    split
    · exact List.drop_suffix _ _
    · split
      · exact List.drop_suffix _ _
      · exact List.suffix_rfl

/-- A placeholder match consumes at least the braces and produces only
well-shaped captures. -/
theorem argRegexMatch_spec {cs : List Char} {m : ArgMatch} (h : argRegexMatch cs = some m) :
    m.restAfter.length < cs.length ∧ GoodCaps m.caps := by
  unfold argRegexMatch at h
  split at h
  · rename_i cs1
    split at h
    · rename_i cs3 hh
      split at h
      · rename_i caps rest hspec
        simp only [Option.some.injEq] at h
        subst h
        have h1 : rest <:+ cs3 := specFragMatch_suffix hspec
        have h2 : (':' :: cs3) <:+ cs1 := hh ▸ headMatch_suffix cs1
        have h3 := h1.length_le
        have h4 := h2.length_le
        refine ⟨?_, specFragMatch_good hspec⟩
        simp only [List.length_cons] at h4 ⊢
        have h5 : (rest.drop 1).length = rest.length - 1 := List.length_drop 1 rest
        omega
      · exact Option.noConfusion h
    · rename_i cs3 hh
      simp only [Option.some.injEq] at h
      subst h
      have h2 : ('}' :: cs3) <:+ cs1 := hh ▸ headMatch_suffix cs1
      have h4 := h2.length_le
      simp only [List.length_cons] at h4 ⊢
      exact ⟨by omega, goodCaps_empty⟩
    · exact Option.noConfusion h
  · exact Option.noConfusion h

/-- Outcome analysis of `parse_substitution`: either the error step at the
current offset, clearing the input, or a supported substitution segment that
consumes the whole placeholder. -/
theorem parse_substitution_spec {V : Type} {p : Parser V} {r : Except Nat (Segment V)}
    {p' : Parser V} (h : p.parse_substitution = StepResult.item r p') :
    (r = Except.error p.parsed_len ∧ p'.unparsed = []) ∨
      (∃ s, r = Except.ok s ∧ ∃ k, 0 < k ∧ k ≤ p.unparsed.length ∧
        p'.unparsed = p.unparsed.drop k ∧
        p'.parsed_len = p.parsed_len + utf8Len (p.unparsed.take k) ∧
        p'.positional = p.positional ∧ p'.named = p.named ∧ p'.fa = p.fa ∧
        ∃ spec v, s = Segment.substitution spec v ∧ p.fa.supports_format v spec = true) := by
  unfold Parser.parse_substitution at h
  split at h
  · simp only [Parser.errStep, StepResult.item.injEq] at h
    exact Or.inl ⟨h.1.symm, by rw [← h.2]; rfl⟩
  · rename_i m hm
    split at h
    · exact StepResult.noConfusion h
    · rename_i p2 hcap
      obtain ⟨hc1, hc2, hc3, _, _⟩ := (parse_specifier_captures_state hcap).1
      simp only [Parser.errStep, StepResult.item.injEq] at h
      refine Or.inl ⟨by rw [← h.1, hc3], by rw [← h.2]; simp [Parser.error]⟩
    · rename_i spec p2 hcap
      obtain ⟨hcfa, hcunp, hclen, hcpos, hcnam⟩ := (parse_specifier_captures_state hcap).1
      split at h
      · rename_i p3 hlk
        obtain ⟨hlfa, hlunp, hllen, hlpos, hlnam⟩ := (lookup_argument_state hlk).1
        simp only [Parser.errStep, StepResult.item.injEq] at h
        refine Or.inl ⟨by rw [← h.1, hllen, hclen], by rw [← h.2]; simp [Parser.error]⟩
      · rename_i v p3 hlk
        obtain ⟨hlfa, hlunp, hllen, hlpos, hlnam⟩ := (lookup_argument_state hlk).1
        split at h
        · rename_i hsup
          simp only [StepResult.item.injEq] at h
          obtain ⟨hr, hp⟩ := h
          obtain ⟨hlen, hgood⟩ := argRegexMatch_spec hm
          refine Or.inr ⟨_, hr.symm, p.unparsed.length - m.restAfter.length,
            by omega, by omega, ?_, ?_, ?_, ?_, ?_, spec, v, rfl, hsup⟩
          · rw [← hp]
            simp only [Parser.advance]
            rw [hlunp, hcunp]
          · rw [← hp]
            simp only [Parser.advance]
            rw [hllen, hclen, hlunp, hcunp]
          · rw [← hp]
            simp only [Parser.advance]
            rw [hlpos, hcpos]
          · rw [← hp]
            simp only [Parser.advance]
            rw [hlnam, hcnam]
          · rw [← hp]
            simp only [Parser.advance]
            rw [hlfa, hcfa]
        · rename_i hsup
          simp only [Parser.errStep, StepResult.item.injEq] at h
          refine Or.inl ⟨by rw [← h.1, hllen, hclen], by rw [← h.2]; simp [Parser.error]⟩

/-- A `findIdx?` hit at position zero means the head satisfies the predicate. -/
theorem findIdx?_zero_head {α : Type _} {p : α → Bool} {l : List α}
    (h : l.findIdx? p = some 0) : ∃ c t, l = c :: t ∧ p c = true := by
  cases l with
  | nil => simp [List.findIdx?] at h
  | cons x xs =>
    rw [List.findIdx?_cons] at h
    by_cases hx : p x
    · exact ⟨x, xs, rfl, hx⟩
    · simp [hx] at h

/-- Outcome analysis of one `Iterator::next` step. -/
theorem next_spec {V : Type} {p : Parser V} {r : Except Nat (Segment V)} {p' : Parser V}
    (h : p.next = StepResult.item r p') :
    (r = Except.error p.parsed_len ∧ p'.unparsed = [] ∧
        ∃ c t, p.unparsed = c :: t ∧ (c = '{' ∨ c = '}')) ∨
      (∃ s, r = Except.ok s ∧ ∃ k, 0 < k ∧ k ≤ p.unparsed.length ∧
        p'.unparsed = p.unparsed.drop k ∧
        p'.parsed_len = p.parsed_len + utf8Len (p.unparsed.take k) ∧
        p'.positional = p.positional ∧ p'.named = p.named ∧ p'.fa = p.fa ∧
        ((∃ t, s = Segment.text t) ∨
          ∃ spec v, s = Segment.substitution spec v ∧ p.fa.supports_format v spec = true)) := by
  unfold Parser.next at h
  split at h
  · exact StepResult.noConfusion h
  · rename_i hne
    have hnil : p.unparsed ≠ [] := by simpa [List.isEmpty_iff] using hne
    have hlen : 0 < p.unparsed.length := List.length_pos.mpr hnil
    split at h
    · simp only [StepResult.item.injEq] at h
      obtain ⟨hr, hp⟩ := h
      exact Or.inr ⟨_, hr.symm, p.unparsed.length, hlen, le_refl _,
        by rw [← hp]; rfl, by rw [← hp]; rfl, by rw [← hp]; rfl, by rw [← hp]; rfl,
        by rw [← hp]; rfl, Or.inl ⟨_, rfl⟩⟩
    · -- brace at position 0: escaped pair or substitution
      rename_i hfind0
      have hbrace : ∃ c t, p.unparsed = c :: t ∧ (c = '{' ∨ c = '}') := by
        obtain ⟨c, t, hct, hc⟩ := findIdx?_zero_head hfind0
        refine ⟨c, t, hct, ?_⟩
        simpa using hc
      unfold Parser.parse_braces at h
      split at h
      · simp only [Parser.errStep, StepResult.item.injEq] at h
        exact Or.inl ⟨h.1.symm, by rw [← h.2]; rfl, hbrace⟩
      · simp only [Parser.errStep, StepResult.item.injEq] at h
        exact Or.inl ⟨h.1.symm, by rw [← h.2]; rfl, hbrace⟩
      · rename_i c1 c2 t hu
        split at h
        · simp only [StepResult.item.injEq] at h
          obtain ⟨hr, hp⟩ := h
          refine Or.inr ⟨_, hr.symm, 2, by omega, by rw [hu]; simp, by rw [← hp]; rfl,
            by rw [← hp]; rfl, by rw [← hp]; rfl, by rw [← hp]; rfl, by rw [← hp]; rfl,
            Or.inl ⟨_, rfl⟩⟩
        · rcases parse_substitution_spec h with hcase | hcase
          · exact Or.inl ⟨hcase.1, hcase.2, hbrace⟩
          · obtain ⟨s, hs, k, h1, h2, h3, h4, h5, h6, h7, hrest⟩ := hcase
            exact Or.inr ⟨s, hs, k, h1, h2, h3, h4, h5, h6, h7, Or.inr hrest⟩
    · rename_i i hne0 hfind
      have hbound : i < p.unparsed.length := findIdx?_lt_length hfind
      simp only [StepResult.item.injEq] at h
      obtain ⟨hr, hp⟩ := h
      exact Or.inr ⟨_, hr.symm, i, Nat.pos_of_ne_zero (fun h0 => hne0 h0), by omega,
        by rw [← hp]; rfl, by rw [← hp]; rfl,
        by rw [← hp]; rfl, by rw [← hp]; rfl, by rw [← hp]; rfl, Or.inl ⟨_, rfl⟩⟩

/-! ## Whole-run facts -/

theorem utf8Len_append (a b : List Char) : utf8Len (a ++ b) = utf8Len a + utf8Len b := by
  simp [utf8Len]

/-- After an error the input is cleared, so the next call returns `None`. -/
theorem next_done_of_nil {V : Type} {p : Parser V} (h : p.unparsed = []) :
    p.next = StepResult.done := by
  unfold Parser.next
  rw [h]
  simp

/-- An error item reports the current offset and clears the input. -/
theorem next_error_spec {V : Type} {p : Parser V} {e : Nat} {p' : Parser V}
    (h : p.next = StepResult.item (Except.error e) p') :
    e = p.parsed_len ∧ p'.unparsed = [] := by
  rcases next_spec h with ⟨h1, h2, -⟩ | ⟨s, hs, -⟩
  · refine ⟨?_, h2⟩
    simpa using h1
  · exact absurd hs (by simp)

/-- With fuel exceeding the input length the run always finishes. -/
theorem runFuel_ne_fuelOut {V : Type} :
    ∀ (fuel : Nat) (p : Parser V), p.unparsed.length < fuel →
      p.runFuel fuel ≠ RunResult.fuelOut := by
  intro fuel
  induction fuel with
  | zero => intro p h; omega
  | succ fuel ih =>
    intro p h
    rw [Parser.runFuel]
    cases hn : p.next with
    | done => simp
    | panicked => simp
    | item r p2 =>
      cases r with
      | error e => simp
      | ok s =>
        rcases next_spec hn with ⟨h1, -⟩ | ⟨s2, hs2, k, hk1, hk2, hu, -⟩
        · exact absurd h1 (by simp)
        · have hlen : p2.unparsed.length < fuel := by
            rw [hu, List.length_drop]
            omega
          have hne := ih p2 hlen
          cases hrf : Parser.runFuel fuel p2 with
          | fuelOut => exact absurd hrf hne
          | panicked => simp [hrf]
          | ok rr => cases rr <;> simp [hrf]

/-- The tokenizer never panics: the regexes only produce size tokens with a
non-empty body in front of a `$`. -/
theorem parse_substitution_ne_panicked {V : Type} (p : Parser V) :
    p.parse_substitution ≠ StepResult.panicked := by
  unfold Parser.parse_substitution
  split
  · simp [Parser.errStep]
  · rename_i m hm
    split
    · rename_i hcap
      have := parse_specifier_captures_isSome p (argRegexMatch_spec hm).2
      rw [hcap] at this
      simp at this
    · simp [Parser.errStep]
    · split
      · simp [Parser.errStep]
      · split <;> simp [Parser.errStep]

theorem next_ne_panicked {V : Type} (p : Parser V) : p.next ≠ StepResult.panicked := by
  unfold Parser.next
  split
  · simp
  · split
    · simp
    · unfold Parser.parse_braces
      split
      · simp [Parser.errStep]
      · simp [Parser.errStep]
      · split
        · simp
        · exact parse_substitution_ne_panicked p
    · simp

theorem runFuel_ne_panicked {V : Type} :
    ∀ (fuel : Nat) (p : Parser V), p.runFuel fuel ≠ RunResult.panicked := by
  intro fuel
  induction fuel with
  | zero => intro p; simp [Parser.runFuel]
  | succ fuel ih =>
    intro p
    rw [Parser.runFuel]
    cases hn : p.next with
    | done => simp
    | panicked => exact absurd hn (next_ne_panicked p)
    | item r p2 =>
      cases r with
      | error e => simp
      | ok s =>
        have hne := ih p2
        cases hrf : Parser.runFuel fuel p2 with
        | fuelOut => simp [hrf]
        | panicked => exact absurd hrf hne
        | ok rr => cases rr <;> simp [hrf]

/-- Any error reported by a run is the byte offset of a brace-headed suffix of
the remaining input. -/
theorem runFuel_error_pos {V : Type} :
    ∀ (fuel : Nat) (p : Parser V) (n : Nat), p.runFuel fuel = RunResult.ok (Except.error n) →
      ∃ pre c suf, p.unparsed = pre ++ c :: suf ∧ (c = '{' ∨ c = '}') ∧
        n = p.parsed_len + utf8Len pre := by
  intro fuel
  induction fuel with
  | zero => intro p n h; simp [Parser.runFuel] at h
  | succ fuel ih =>
    intro p n h
    rw [Parser.runFuel] at h
    cases hn : p.next with
    | done => rw [hn] at h; simp at h
    | panicked => rw [hn] at h; simp at h
    | item r p2 =>
      rw [hn] at h
      cases r with
      | error e =>
        dsimp only at h
        simp only [RunResult.ok.injEq, Except.error.injEq] at h
        rcases next_spec hn with ⟨h1, h2, c, t, hct, hc⟩ | ⟨s, hs, -⟩
        · refine ⟨[], c, t, hct, hc, ?_⟩
          have : e = p.parsed_len := by simpa using h1
          simp [utf8Len, ← h, this]
        · exact absurd hs (by simp)
      | ok s =>
        dsimp only at h
        cases hrf : Parser.runFuel fuel p2 with
        | fuelOut => rw [hrf] at h; simp at h
        | panicked => rw [hrf] at h; simp at h
        | ok rr =>
          cases rr with
          | ok rest => rw [hrf] at h; simp at h
          | error e =>
            rw [hrf] at h
            simp only [RunResult.ok.injEq, Except.error.injEq] at h
            subst h
            obtain ⟨pre, c, suf, hu2, hc, hn2⟩ := ih p2 e hrf
            rcases next_spec hn with ⟨h1, -⟩ | ⟨s2, hs2, k, hk1, hk2, hu, hpl, -⟩
            · exact absurd h1 (by simp)
            · refine ⟨p.unparsed.take k ++ pre, c, suf, ?_, hc, ?_⟩
              · rw [List.append_assoc, ← hu2, hu, List.take_append_drop]
              · rw [hn2, hpl, utf8Len_append]
                omega

/-- Every substitution segment a successful run produces passed the support
check with the run's own value dictionary. -/
theorem runFuel_ok_supports {V : Type} :
    ∀ (fuel : Nat) (p : Parser V) (segs : List (Segment V)),
      p.runFuel fuel = RunResult.ok (Except.ok segs) →
      ∀ spec v, Segment.substitution spec v ∈ segs →
        p.fa.supports_format v spec = true := by
  intro fuel
  induction fuel with
  | zero => intro p segs h; simp [Parser.runFuel] at h
  | succ fuel ih =>
    intro p segs h
    rw [Parser.runFuel] at h
    cases hn : p.next with
    | done =>
      rw [hn] at h
      simp only [RunResult.ok.injEq, Except.ok.injEq] at h
      subst h
      intro spec v hv
      simp at hv
    | panicked => rw [hn] at h; simp at h
    | item r p2 =>
      rw [hn] at h
      cases r with
      | error e => dsimp only at h; simp at h
      | ok s =>
        dsimp only at h
        cases hrf : Parser.runFuel fuel p2 with
        | fuelOut => rw [hrf] at h; simp at h
        | panicked => rw [hrf] at h; simp at h
        | ok rr =>
          cases rr with
          | error e => rw [hrf] at h; simp at h
          | ok rest =>
            rw [hrf] at h
            simp only [RunResult.ok.injEq, Except.ok.injEq] at h
            subst h
            intro spec v hv
            rcases next_spec hn with ⟨h1, -⟩ | ⟨s2, hs2, k, -, -, -, -, -, -, hfa, hseg⟩
            · exact absurd h1 (by simp)
            · rcases List.mem_cons.mp hv with hv | hv
              · have hseq : s = s2 := by simpa using hs2
                rcases hseg with ⟨t, ht⟩ | ⟨spec2, v2, hsv, hsup⟩
                · rw [hseq, ht] at hv
                  exact absurd hv (by simp)
                · rw [hseq, hsv] at hv
                  injection hv with h1 h2
                  rw [h1, h2]
                  exact hsup
              · have := ih p2 rest hrf spec v hv
                rw [hfa] at this
                exact this

/-! ## Collaborator instance used by rendering examples -/

/-- A trivial collaborator whose values carry their own display text: every
renderer echoes the value, every format is supported, sizes do not convert.
Used to instantiate rendering examples (the elementary renderers are the
caller's responsibility in the source). -/
def textFA : FormatArgument (List Char) :=
  { supports_format := fun _ _ => true
    fmt_display := fun v _ => some v
    fmt_debug := fun v _ => some v
    fmt_octal := fun v _ => some v
    fmt_lower_hex := fun v _ => some v
    fmt_upper_hex := fun v _ => some v
    fmt_binary := fun v _ => some v
    fmt_lower_exp := fun v _ => some v
    fmt_upper_exp := fun v _ => some v
    convert := fun _ => Except.error () }

/-- Rendering succeeds on any segment list whose substitutions all render. -/
theorem renderSegments_isSome {V : Type} (fa : FormatArgument V) :
    ∀ segs : List (Segment V),
      (∀ spec v, Segment.substitution spec v ∈ segs → (format_value fa spec v).isSome = true) →
      (renderSegments fa segs).isSome = true := by
  intro segs
  induction segs with
  | nil => intro _; simp [renderSegments]
  | cons s rest ih =>
    intro h
    have hrest := ih (fun spec v hv => h spec v (List.mem_cons_of_mem _ hv))
    unfold renderSegments
    have hs : (Segment.render fa s).isSome = true := by
      cases s with
      | text t => simp [Segment.render]
      | substitution spec v =>
        have := h spec v (List.mem_cons_self _ _)
        simpa [Segment.render] using this
    cases hcs : Segment.render fa s with
    | none => rw [hcs] at hs; simp at hs
    | some a =>
      cases hcr : renderSegments fa rest with
      | none => rw [hcr] at hrest; simp at hrest
      | some b => simp

/-! ## The claims -/

/-- Claim C1: within a placeholder, indirect arguments embedded in the
specifier are resolved before the placeholder's own value lookup; hence
`"{} {0:.*}"` with a single positional value fails — the first placeholder
consumes the only argument and the second placeholder's `*` precision asks
the exhausted cursor — and the reported offset is 3, the byte offset of the
second placeholder's start. -/
theorem claim1_star_precision_consumes_cursor {V : Type} (fa : FormatArgument V) (v : V)
    (hsup : fa.supports_format v Specifier.default = true) :
    ParsedFormat.parse fa ("\x7b\x7d \x7b0:.*\x7d").toList [v] noNamed =
      RunResult.ok (Except.error 3) := by
  rw [show ("\x7b\x7d \x7b0:.*\x7d").toList =
    ['{', '}', ' ', '{', '0', ':', '.', '*', '}'] from rfl]
  simp only [Specifier.default] at hsup
  simp [ParsedFormat.parse, Parser.runFuel, Parser.new, Parser.next, Parser.parse_braces,
    Parser.parse_substitution, Parser.errStep, Parser.error, Parser.advance,
    Parser.lookup_argument, Parser.next_argument, Parser.lookup_argument_by_index,
    Parser.lookup_argument_by_name, argRegexMatch, headMatch, specFragMatch, alignStage,
    signStage, reprStage, padStage, widthStage, precStage, fmtStage, widthCands, precCands,
    digitTokenCands, nameTokenCands, isAlignChar, isFmtChar, parse_specifier_captures,
    Align.tryFrom, Sign.tryFrom, Repr.tryFrom, Pad.tryFrom, Format.tryFrom, Width.parse,
    Precision.parse, parse_size, parseNatAscii, decValue, decDigit, utf8Len,
    Option.orElse, List.findSome?, List.findIdx?, SpecCaptures.empty,
    noNamed, hsup]
  decide

/-- Witness for C1 at the test suite's input `Variant::Int(42)`. -/
theorem claim1_witness :
    variantFA.supports_format (Variant.int 42) Specifier.default = true ∧
      ParsedFormat.parse variantFA ("\x7b\x7d \x7b0:.*\x7d").toList [Variant.int 42] noNamed =
        RunResult.ok (Except.error 3) :=
  ⟨by decide, claim1_star_precision_consumes_cursor variantFA (Variant.int 42) (by decide)⟩

/-- Claim C2: whenever parsing fails, the reported number is the byte offset
of the brace that starts the failing placeholder (or at which scanning got
stuck); in particular `"foo {"` fails at 4, `"foo {:Z} bar"` fails at 4, and
`"{} {}"` with a single positional value fails at 3. -/
theorem claim2_error_offsets :
    (∀ (V : Type) (fa : FormatArgument V) (tmpl : List Char) (positional : List V)
        (named : List Char → Option V) (n : Nat),
        ParsedFormat.parse fa tmpl positional named = RunResult.ok (Except.error n) →
        ∃ pre c suf, tmpl = pre ++ c :: suf ∧ (c = '{' ∨ c = '}') ∧ n = utf8Len pre) ∧
      ParsedFormat.parse variantFA ("foo \x7b").toList [] noNamed =
        RunResult.ok (Except.error 4) ∧
      ParsedFormat.parse variantFA ("foo \x7b:Z\x7d bar").toList [Variant.int 42] noNamed =
        RunResult.ok (Except.error 4) ∧
      ParsedFormat.parse variantFA ("\x7b\x7d \x7b\x7d").toList [Variant.int 42] noNamed =
        RunResult.ok (Except.error 3) := by
  refine ⟨?_, by decide, by decide, by decide⟩
  intro V fa tmpl positional named n h
  obtain ⟨pre, c, suf, h1, h2, h3⟩ :=
    runFuel_error_pos (tmpl.length + 1) (Parser.new fa tmpl positional named) n h
  exact ⟨pre, c, suf, h1, h2, by simpa [Parser.new] using h3⟩

/-- Witness for C2's general part at the template `"foo {"`. -/
theorem claim2_witness :
    ∃ pre c suf, ("foo \x7b").toList = pre ++ c :: suf ∧ (c = '{' ∨ c = '}') ∧
      4 = utf8Len pre :=
  claim2_error_offsets.1 Variant variantFA ("foo \x7b").toList [] noNamed 4 (by decide)

/-- Claim C4, code behaviour: the `ARG_RE` name class is the ASCII-only
`[[:alpha:]][[:alnum:]]*`, which admits neither an underscore nor a
non-ASCII letter, so the names that the crate's own test
`named_argument_validity` asserts to parse are rejected at offset 0 — while a
purely ASCII-alphabetic name works, isolating the divergence to the
character class. -/
theorem claim4_code_rejects_test_names :
    ParsedFormat.parse variantFA ("\x7b_leading_underscore\x7d").toList []
        (fun cs => if cs = ("_leading_underscore").toList then some (Variant.int 4242)
                   else none) =
      RunResult.ok (Except.error 0) ∧
    ParsedFormat.parse variantFA ("\x7bуникод\x7d").toList []
        (fun cs => if cs = ("уникод").toList then some Variant.float else none) =
      RunResult.ok (Except.error 0) ∧
    ParsedFormat.parse variantFA ("\x7bascii\x7d").toList []
        (fun cs => if cs = ("ascii").toList then some (Variant.int 42) else none) =
      RunResult.ok (Except.ok [Segment.substitution Specifier.default (Variant.int 42)]) :=
  ⟨by decide, by decide, by decide⟩

/-- Claim C6: when a placeholder's head and specifier resolve and the value
is found but reports no support for the resulting specifier, the
substitution step fails with the placeholder's start offset (and the example
`"ab{:o}"` against a float, which supports no octal, fails at byte 2). -/
theorem claim6_unsupported_format_fails_at_placeholder :
    (∀ (V : Type) (p : Parser V) (m : ArgMatch) (spec : Specifier) (p2 : Parser V)
        (v : V) (p3 : Parser V),
        argRegexMatch p.unparsed = some m →
        parse_specifier_captures m.caps p = some (Except.ok spec, p2) →
        p2.lookup_argument m.head = (some v, p3) →
        p.fa.supports_format v spec = false →
        p.parse_substitution = StepResult.item (Except.error p.parsed_len) p3.error) ∧
      ParsedFormat.parse variantFA ("ab\x7b:o\x7d").toList [Variant.float] noNamed =
        RunResult.ok (Except.error 2) := by
  refine ⟨?_, by decide⟩
  intro V p m spec p2 v p3 hm hcap hlk hsup
  obtain ⟨-, -, hlen2, -, -⟩ := (parse_specifier_captures_state hcap).1
  obtain ⟨-, -, hlen3, -, -⟩ := (lookup_argument_state hlk).1
  unfold Parser.parse_substitution
  rw [hm]
  dsimp only
  rw [hcap]
  dsimp only
  rw [hlk]
  dsimp only
  rw [hsup]
  simp only [Bool.false_eq_true, if_false, Parser.errStep]
  rw [hlen3, hlen2]

/-- Witness for C6: a concrete parser state about to read `"{:o}"` with a
float argument. -/
theorem claim6_witness :
    (Parser.new variantFA ("\x7b:o\x7d").toList [Variant.float] noNamed).parse_substitution =
      StepResult.item (Except.error
        (Parser.new variantFA ("\x7b:o\x7d").toList [Variant.float] noNamed).parsed_len)
        ({ Parser.new variantFA ("\x7b:o\x7d").toList [Variant.float] noNamed with
            positional_iter := ([] : List Variant) }).error :=
  claim6_unsupported_format_fails_at_placeholder.1 Variant
    (Parser.new variantFA ("\x7b:o\x7d").toList [Variant.float] noNamed)
    ⟨HeadCap.implicit, { SpecCaptures.empty with format := some ['o'] }, []⟩
    { Specifier.default with format := Format.octal }
    (Parser.new variantFA ("\x7b:o\x7d").toList [Variant.float] noNamed)
    Variant.float
    ({ Parser.new variantFA ("\x7b:o\x7d").toList [Variant.float] noNamed with
        positional_iter := ([] : List Variant) })
    (by decide) rfl rfl (by decide)

/-- Claim C7: once parsing succeeds, rendering the parsed result cannot fail
(given renderers that honour their `supports_format` claims): every argument
lookup and support check already happened at parse time. -/
theorem claim7_render_total_after_parse {V : Type} (fa : FormatArgument V)
    (tmpl : List Char) (positional : List V) (named : List Char → Option V)
    (segs : List (Segment V))
    (hok : ParsedFormat.parse fa tmpl positional named = RunResult.ok (Except.ok segs))
    (honour : ∀ v spec, fa.supports_format v spec = true →
      (format_value fa spec v).isSome = true) :
    (renderSegments fa segs).isSome = true := by
  have hsup := runFuel_ok_supports (tmpl.length + 1)
    (Parser.new fa tmpl positional named) segs hok
  exact renderSegments_isSome fa segs (fun spec v hv => honour v spec (hsup spec v hv))

/-- Witness for C7: `"{} ok"` over the text collaborator. -/
theorem claim7_witness :
    (renderSegments textFA [Segment.substitution Specifier.default ("42").toList,
      Segment.text (" ok").toList]).isSome = true :=
  claim7_render_total_after_parse textFA ("\x7b\x7d ok").toList [("42").toList] noNamed
    [Segment.substitution Specifier.default ("42").toList, Segment.text (" ok").toList]
    (by decide)
    (by intro v spec _; cases hf : spec.format <;> simp [format_value, textFA, hf])

/-- Claim C8: the segment sequence is finite (the run with fuel exceeding the
template length never runs out) and non-restartable: an error item clears the
input, so the very next call—and hence every later one—returns `None`. -/
theorem claim8_finite_nonrestartable :
    (∀ (V : Type) (fa : FormatArgument V) (tmpl : List Char) (positional : List V)
        (named : List Char → Option V),
        ParsedFormat.parse fa tmpl positional named ≠ RunResult.fuelOut) ∧
      (∀ (V : Type) (p : Parser V) (e : Nat) (p' : Parser V),
        p.next = StepResult.item (Except.error e) p' →
        p'.unparsed = [] ∧ p'.next = StepResult.done) := by
  constructor
  · intro V fa tmpl positional named
    exact runFuel_ne_fuelOut (tmpl.length + 1) (Parser.new fa tmpl positional named)
      (by simp [Parser.new])
  · intro V p e p' h
    have hnil := (next_error_spec h).2
    exact ⟨hnil, next_done_of_nil hnil⟩

/-- Witness for C8 at the stuck template `"{"`. -/
theorem claim8_witness :
    ((Parser.new variantFA ("\x7b").toList [] noNamed).error.unparsed = [] ∧
      (Parser.new variantFA ("\x7b").toList [] noNamed).error.next = StepResult.done) ∧
      ParsedFormat.parse variantFA ("\x7b").toList [] noNamed ≠ RunResult.fuelOut :=
  ⟨claim8_finite_nonrestartable.2 Variant
      (Parser.new variantFA ("\x7b").toList [] noNamed) 0
      (Parser.new variantFA ("\x7b").toList [] noNamed).error rfl,
    claim8_finite_nonrestartable.1 Variant variantFA ("\x7b").toList [] noNamed⟩

/-- Claim C9: the standalone specifier parser's regex is anchored only at the
start: it always matches some prefix and ignores the remaining suffix, and in
particular `parse_specifier "Z"` returns the all-default specifier without
touching the argument source, even though `Z` is not specifier syntax. -/
theorem claim9_specifier_prefix_match :
    (∀ cs : List Char, ∃ caps rest pre,
        specFragMatch cs (fun _ => true) = some (caps, rest) ∧ cs = pre ++ rest) ∧
      (∀ (V : Type) (p : Parser V),
        parse_specifier ['Z'] p = some (Except.ok Specifier.default, p)) := by
  constructor
  · intro cs
    cases hm : specFragMatch cs (fun _ => true) with
    | none =>
      have := specFragMatch_true_isSome cs
      rw [hm] at this
      simp at this
    | some x =>
      obtain ⟨caps, rest⟩ := x
      obtain ⟨pre, hpre⟩ := specFragMatch_suffix hm
      exact ⟨caps, rest, pre, rfl, hpre.symm⟩
  · intro V p
    rfl

/-- Claim C10: parsing never panics.  The full parse never reaches the
`panicked` outcome (for any template and stores), and neither does the bare
specifier parser: every `$`-terminated width/precision token the regexes
capture has a non-empty body, so `parse_size`'s first-byte access is safe. -/
theorem claim10_no_panic :
    (∀ (V : Type) (fa : FormatArgument V) (tmpl : List Char) (positional : List V)
        (named : List Char → Option V),
        ParsedFormat.parse fa tmpl positional named ≠ RunResult.panicked) ∧
      (∀ (V : Type) (spec_str : List Char) (p : Parser V),
        parse_specifier spec_str p ≠ none) := by
  constructor
  · intro V fa tmpl positional named
    exact runFuel_ne_panicked (tmpl.length + 1) (Parser.new fa tmpl positional named)
  · intro V spec_str p
    unfold parse_specifier
    cases hm : specFragMatch spec_str (fun _ => true) with
    | none => simp
    | some x =>
      obtain ⟨caps, rest⟩ := x
      have hg := parse_specifier_captures_isSome p (specFragMatch_good hm)
      dsimp only
      intro hcontra
      rw [hcontra] at hg
      simp at hg

/-- Witness for C10 at a dollar-suffixed token and template. -/
theorem claim10_witness :
    ParsedFormat.parse variantFA ("x\x7b0:.2$\x7d").toList [Variant.int 42] noNamed ≠
        RunResult.panicked ∧
      parse_specifier ("5$").toList (Parser.new variantFA [] [] noNamed) ≠ none :=
  ⟨claim10_no_panic.1 Variant variantFA ("x\x7b0:.2$\x7d").toList [Variant.int 42] noNamed,
    claim10_no_panic.2 Variant ("5$").toList (Parser.new variantFA [] [] noNamed)⟩

/-- Claim C3: the positional cursor advances only through `next_argument`:
a placeholder with an explicit index or name and no `*` precision leaves the
positional iterator untouched whatever else it does; and implicit
placeholders receive the positional values in template order — `"{} {}"`
renders both values left to right while `"{1}"` renders only the second
(shown for any values displaying as `42` and `42.042`). -/
theorem claim3_cursor_only_via_next :
    (∀ (V : Type) (p : Parser V) (r : Except Nat (Segment V)) (p' : Parser V) (m : ArgMatch),
        argRegexMatch p.unparsed = some m → m.head ≠ HeadCap.implicit →
        m.caps.precision ≠ some ['*'] →
        p.parse_substitution = StepResult.item r p' →
        p'.positional_iter = p.positional_iter) ∧
      (∀ (V : Type) (fa : FormatArgument V) (v0 v1 : V),
        fa.supports_format v0 Specifier.default = true →
        fa.supports_format v1 Specifier.default = true →
        fa.fmt_display v0 Specifier.default = some ("42").toList →
        fa.fmt_display v1 Specifier.default = some ("42.042").toList →
        ParsedFormat.parse fa ("\x7b\x7d \x7b\x7d").toList [v0, v1] noNamed =
          RunResult.ok (Except.ok [Segment.substitution Specifier.default v0,
            Segment.text [' '], Segment.substitution Specifier.default v1]) ∧
        renderSegments fa [Segment.substitution Specifier.default v0,
            Segment.text [' '], Segment.substitution Specifier.default v1] =
          some ("42 42.042").toList ∧
        ParsedFormat.parse fa ("\x7b1\x7d").toList [v0, v1] noNamed =
          RunResult.ok (Except.ok [Segment.substitution Specifier.default v1]) ∧
        renderSegments fa [Segment.substitution Specifier.default v1] =
          some ("42.042").toList) := by
  constructor
  · intro V p r p' m hm hne hstar hstep
    unfold Parser.parse_substitution at hstep
    rw [hm] at hstep
    dsimp only at hstep
    split at hstep
    · exact StepResult.noConfusion hstep
    · rename_i p2 hcap
      have hp2 : p2 = p := (parse_specifier_captures_state hcap).2 hstar
      simp only [Parser.errStep, StepResult.item.injEq] at hstep
      rw [← hstep.2, hp2]
      rfl
    · rename_i spec p2 hcap
      have hp2 : p2 = p := (parse_specifier_captures_state hcap).2 hstar
      split at hstep
      · rename_i p3 hlk
        have hp3 : p3 = p2 := (lookup_argument_state hlk).2 hne
        simp only [Parser.errStep, StepResult.item.injEq] at hstep
        rw [← hstep.2, hp3, hp2]
        rfl
      · rename_i v p3 hlk
        have hp3 : p3 = p2 := (lookup_argument_state hlk).2 hne
        split at hstep
        · simp only [StepResult.item.injEq] at hstep
          rw [← hstep.2, hp3, hp2]
          rfl
        · simp only [Parser.errStep, StepResult.item.injEq] at hstep
          rw [← hstep.2, hp3, hp2]
          rfl
  · intro V fa v0 v1 hs0 hs1 hd0 hd1
    simp only [Specifier.default] at hs0 hs1 hd0 hd1
    refine ⟨?_, ?_, ?_, ?_⟩
    · rw [show ("\x7b\x7d \x7b\x7d").toList = ['{', '}', ' ', '{', '}'] from rfl]
      simp [ParsedFormat.parse, Parser.runFuel, Parser.new, Parser.next, Parser.parse_braces,
        Parser.parse_substitution, Parser.errStep, Parser.error, Parser.advance,
        Parser.lookup_argument, Parser.next_argument, Parser.lookup_argument_by_index,
        Parser.lookup_argument_by_name, argRegexMatch, headMatch, specFragMatch, alignStage,
        signStage, reprStage, padStage, widthStage, precStage, fmtStage, widthCands,
        precCands, digitTokenCands, nameTokenCands, isAlignChar, isFmtChar,
        parse_specifier_captures, Align.tryFrom, Sign.tryFrom, Repr.tryFrom, Pad.tryFrom,
        Format.tryFrom, Width.parse, Precision.parse, parse_size, parseNatAscii, decValue,
        decDigit, utf8Len, Option.orElse, List.findSome?, List.findIdx?, SpecCaptures.empty,
        noNamed, hs0, hs1, Specifier.default]
    · simp [renderSegments, Segment.render, format_value, Specifier.default, hd0, hd1]
    · rw [show ("\x7b1\x7d").toList = ['{', '1', '}'] from rfl]
      simp [ParsedFormat.parse, Parser.runFuel, Parser.new, Parser.next, Parser.parse_braces,
        Parser.parse_substitution, Parser.errStep, Parser.error, Parser.advance,
        Parser.lookup_argument, Parser.next_argument, Parser.lookup_argument_by_index,
        Parser.lookup_argument_by_name, argRegexMatch, headMatch, specFragMatch, alignStage,
        signStage, reprStage, padStage, widthStage, precStage, fmtStage, widthCands,
        precCands, digitTokenCands, nameTokenCands, isAlignChar, isFmtChar,
        parse_specifier_captures, Align.tryFrom, Sign.tryFrom, Repr.tryFrom, Pad.tryFrom,
        Format.tryFrom, Width.parse, Precision.parse, parse_size, parseNatAscii, decValue,
        decDigit, utf8Len, Option.orElse, List.findSome?, List.findIdx?, SpecCaptures.empty,
        noNamed, hs1, Specifier.default]
    · simp [renderSegments, Segment.render, format_value, Specifier.default, hd1]

/-- Witness for C3 over the text collaborator, with values displaying as
`42` and `42.042`. -/
theorem claim3_witness :
    ParsedFormat.parse textFA ("\x7b\x7d \x7b\x7d").toList
        [("42").toList, ("42.042").toList] noNamed =
      RunResult.ok (Except.ok [Segment.substitution Specifier.default ("42").toList,
        Segment.text [' '], Segment.substitution Specifier.default ("42.042").toList]) ∧
      renderSegments textFA [Segment.substitution Specifier.default ("42").toList,
          Segment.text [' '], Segment.substitution Specifier.default ("42.042").toList] =
        some ("42 42.042").toList :=
  have h := claim3_cursor_only_via_next.2 (List Char) textFA ("42").toList ("42.042").toList
    rfl rfl rfl rfl
  ⟨h.1, h.2.1⟩

/-! ## Round-tripping a rendered `Specifier` (for claim C5)

The canonical captures that matching a rendered specifier produces. -/

/-- Capture of the `align` group on a rendered specifier. -/
def Align.cap : Align → Option (List Char)
  | Align.none => Option.none
  | a => some a.frag

/-- Capture of the `sign` group on a rendered specifier. -/
def Sign.cap : Sign → Option (List Char)
  | Sign.default => Option.none
  | Sign.always => some ['+']

/-- Capture of the `repr` group on a rendered specifier. -/
def Repr.cap : Repr → Option (List Char)
  | Repr.default => Option.none
  | Repr.alt => some ['#']

/-- Capture of the `pad` group on a rendered specifier. -/
def Pad.cap : Pad → Option (List Char)
  | Pad.space => Option.none
  | Pad.zero => some ['0']

/-- Capture of the `width` group on a rendered specifier. -/
def Width.cap : Width → Option (List Char)
  | Width.auto => Option.none
  | Width.atLeast w => some (natToDecimal w)

/-- Capture of the `precision` group on a rendered specifier. -/
def Precision.cap : Precision → Option (List Char)
  | Precision.auto => Option.none
  | Precision.exactly p => some (natToDecimal p)

/-- Capture of the `format` group on a rendered specifier. -/
def Format.cap : Format → Option (List Char)
  | Format.display => Option.none
  | f => some f.frag

/-- The capture set produced by matching `s.render`. -/
def Specifier.capsOf (s : Specifier) : SpecCaptures :=
  ⟨s.align.cap, s.sign.cap, s.repr.cap, s.pad.cap, s.width.cap, s.precision.cap, s.format.cap⟩

/-! Character-class disjointness facts used to steer the stages. -/

theorem isFmtChar_cases {c : Char} (h : isFmtChar c = true) :
    c = '?' ∨ c = 'o' ∨ c = 'x' ∨ c = 'X' ∨ c = 'b' ∨ c = 'e' ∨ c = 'E' := by
  simp only [isFmtChar, Bool.or_eq_true, decide_eq_true_eq] at h
  tauto

theorem fmt_not_align {c : Char} (h : isFmtChar c = true) : isAlignChar c = false := by
  rcases isFmtChar_cases h with rfl | rfl | rfl | rfl | rfl | rfl | rfl <;> decide

theorem fmt_ne_plus {c : Char} (h : isFmtChar c = true) : c ≠ '+' := by
  rcases isFmtChar_cases h with rfl | rfl | rfl | rfl | rfl | rfl | rfl <;> decide

theorem fmt_ne_hash {c : Char} (h : isFmtChar c = true) : c ≠ '#' := by
  rcases isFmtChar_cases h with rfl | rfl | rfl | rfl | rfl | rfl | rfl <;> decide

theorem fmt_ne_zero {c : Char} (h : isFmtChar c = true) : c ≠ '0' := by
  rcases isFmtChar_cases h with rfl | rfl | rfl | rfl | rfl | rfl | rfl <;> decide

theorem fmt_not_digit {c : Char} (h : isFmtChar c = true) : c.isDigit = false := by
  rcases isFmtChar_cases h with rfl | rfl | rfl | rfl | rfl | rfl | rfl <;> decide

theorem fmt_ne_dollar {c : Char} (h : isFmtChar c = true) : c ≠ '$' := by
  rcases isFmtChar_cases h with rfl | rfl | rfl | rfl | rfl | rfl | rfl <;> decide

theorem fmt_ne_dot {c : Char} (h : isFmtChar c = true) : c ≠ '.' := by
  rcases isFmtChar_cases h with rfl | rfl | rfl | rfl | rfl | rfl | rfl <;> decide

theorem digit_not_align {c : Char} (h : c.isDigit = true) : isAlignChar c = false := by
  by_contra hne
  have : isAlignChar c = true := by
    cases ha : isAlignChar c
    · exact absurd ha hne
    · rfl
  simp only [isAlignChar, Bool.or_eq_true, decide_eq_true_eq] at this
  rcases this with (rfl | rfl) | rfl <;> simp [Char.isDigit] at h

theorem digit_ne_plus {c : Char} (h : c.isDigit = true) : c ≠ '+' := by
  intro hc; subst hc; simp [Char.isDigit] at h

theorem digit_ne_hash {c : Char} (h : c.isDigit = true) : c ≠ '#' := by
  intro hc; subst hc; simp [Char.isDigit] at h

theorem digit_ne_dollar {c : Char} (h : c.isDigit = true) : c ≠ '$' := by
  intro hc; subst hc; simp [Char.isDigit] at h

theorem digit_ne_star {c : Char} (h : c.isDigit = true) : c ≠ '*' := by
  intro hc; subst hc; simp [Char.isDigit] at h

theorem digit_ne_dot {c : Char} (h : c.isDigit = true) : c ≠ '.' := by
  intro hc; subst hc; simp [Char.isDigit] at h

theorem digit_not_alpha {c : Char} (h : c.isDigit = true) : c.isAlpha = false := by
  simp only [Char.isDigit, decide_eq_true_eq, Bool.and_eq_true] at h
  obtain ⟨h1, h2⟩ := h
  cases ha : c.isAlpha
  · rfl
  · exfalso
    simp only [Char.isAlpha, Char.isUpper, Char.isLower, Bool.or_eq_true, Bool.and_eq_true,
      decide_eq_true_eq] at ha
    have g1 : (48 : Nat) ≤ c.val.toNat := h1
    have g2 : c.val.toNat ≤ (57 : Nat) := h2
    rcases ha with ⟨a1, a2⟩ | ⟨a1, a2⟩
    · have g3 : ((65 : UInt32)).toNat ≤ c.val.toNat := a1
      have g4 : ((65 : UInt32)).toNat = 65 := rfl
      omega
    · have g3 : ((97 : UInt32)).toNat ≤ c.val.toNat := a1
      have g4 : ((97 : UInt32)).toNat = 97 := rfl
      omega

/-- The head of an append. -/
theorem head?_append_cases {α : Type _} {a b : List α} {c : α}
    (h : (a ++ b).head? = some c) : a.head? = some c ∨ (a = [] ∧ b.head? = some c) := by
  cases a with
  | nil => simp at h ⊢; exact h
  | cons x t => simp at h ⊢; exact h

/-- A `head?` hit is a member. -/
theorem head?_eq_some_mem {α : Type _} {l : List α} {c : α} (h : l.head? = some c) : c ∈ l := by
  cases l with
  | nil => simp at h
  | cons x t => simp at h; simp [h]

theorem fmtFrag_head {f : Format} {c : Char} (h : (Format.frag f).head? = some c) :
    isFmtChar c = true := by
  cases f <;> simp [Format.frag] at h <;> simp [← h, isFmtChar]

theorem pf_head {pr : Precision} {f : Format} {c : Char}
    (h : (Precision.frag pr ++ Format.frag f).head? = some c) :
    c = '.' ∨ isFmtChar c = true := by
  cases pr with
  | auto =>
    simp only [Precision.frag, List.nil_append] at h
    exact Or.inr (fmtFrag_head h)
  | exactly p =>
    simp only [Precision.frag, List.cons_append, List.head?_cons, Option.some.injEq] at h
    exact Or.inl h.symm

theorem wpf_head {w : Width} {pr : Precision} {f : Format} {c : Char}
    (h : (Width.frag w ++ (Precision.frag pr ++ Format.frag f)).head? = some c) :
    c.isDigit = true ∨ c = '.' ∨ isFmtChar c = true := by
  cases w with
  | auto =>
    simp only [Width.frag, List.nil_append] at h
    exact Or.inr (pf_head h)
  | atLeast n =>
    obtain ⟨hne, hdig, -, -⟩ := natToDecimal_spec n
    rcases head?_append_cases h with h | ⟨hnil, h⟩
    · exact Or.inl (hdig c (head?_eq_some_mem h))
    · simp only [Width.frag] at hnil
      exact absurd hnil hne

theorem pwpf_head {pa : Pad} {w : Width} {pr : Precision} {f : Format} {c : Char}
    (h : (Pad.frag pa ++ (Width.frag w ++ (Precision.frag pr ++ Format.frag f))).head? =
      some c) :
    c = '0' ∨ c.isDigit = true ∨ c = '.' ∨ isFmtChar c = true := by
  cases pa with
  | space =>
    simp only [Pad.frag, List.nil_append] at h
    exact Or.inr (wpf_head h)
  | zero =>
    simp only [Pad.frag, List.cons_append, List.head?_cons, Option.some.injEq] at h
    exact Or.inl h.symm

theorem rpwpf_head {rp : Repr} {pa : Pad} {w : Width} {pr : Precision} {f : Format} {c : Char}
    (h : (Repr.frag rp ++ (Pad.frag pa ++ (Width.frag w ++
      (Precision.frag pr ++ Format.frag f)))).head? = some c) :
    c = '#' ∨ c = '0' ∨ c.isDigit = true ∨ c = '.' ∨ isFmtChar c = true := by
  cases rp with
  | default =>
    simp only [Repr.frag, List.nil_append] at h
    exact Or.inr (pwpf_head h)
  | alt =>
    simp only [Repr.frag, List.cons_append, List.head?_cons, Option.some.injEq] at h
    exact Or.inl h.symm

theorem spwpf_head {sg : Sign} {rp : Repr} {pa : Pad} {w : Width} {pr : Precision}
    {f : Format} {c : Char}
    (h : (Sign.frag sg ++ (Repr.frag rp ++ (Pad.frag pa ++ (Width.frag w ++
      (Precision.frag pr ++ Format.frag f))))).head? = some c) :
    c = '+' ∨ c = '#' ∨ c = '0' ∨ c.isDigit = true ∨ c = '.' ∨ isFmtChar c = true := by
  cases sg with
  | default =>
    simp only [Sign.frag, List.nil_append] at h
    exact Or.inr (rpwpf_head h)
  | always =>
    simp only [Sign.frag, List.cons_append, List.head?_cons, Option.some.injEq] at h
    exact Or.inl h.symm

theorem fmtFrag_takeWhile_digit (f : Format) :
    (Format.frag f).takeWhile Char.isDigit = [] := by
  cases f <;> decide

theorem pf_takeWhile_digit (pr : Precision) (f : Format) :
    (Precision.frag pr ++ Format.frag f).takeWhile Char.isDigit = [] := by
  cases pr with
  | auto =>
    simp only [Precision.frag, List.nil_append]
    exact fmtFrag_takeWhile_digit f
  | exactly p =>
    simp only [Precision.frag, List.cons_append]
    rw [List.takeWhile_cons]
    simp [Char.isDigit]

theorem takeWhile_digit_decimal (n : Nat) (rest : List Char)
    (hrest : rest.takeWhile Char.isDigit = []) :
    (natToDecimal n ++ rest).takeWhile Char.isDigit = natToDecimal n := by
  rw [List.takeWhile_append_of_pos (natToDecimal_spec n).2.1, hrest, List.append_nil]

theorem dollar_not_mem_decimal (n : Nat) : '$' ∉ natToDecimal n := by
  intro hmem
  have := (natToDecimal_spec n).2.1 _ hmem
  exact absurd this (by decide)

theorem dollar_not_mem_pf (pr : Precision) (f : Format) :
    '$' ∉ Precision.frag pr ++ Format.frag f := by
  intro hmem
  rcases List.mem_append.mp hmem with h | h
  · cases pr with
    | auto => simp [Precision.frag] at h
    | exactly p =>
      simp only [Precision.frag, List.mem_cons] at h
      rcases h with h | h
      · exact absurd h (by decide)
      · exact dollar_not_mem_decimal p h
  · cases f <;> simp [Format.frag] at h

theorem digitTokenCands_nil {cs : List Char}
    (hhd : ∀ c, cs.head? = some c → c.isDigit = false) : digitTokenCands cs = [] := by
  unfold digitTokenCands
  have hemp : (cs.takeWhile Char.isDigit).isEmpty = true := by
    cases cs with
    | nil => rfl
    | cons c t =>
      rw [List.takeWhile_cons]
      simp [hhd c rfl]
  rw [if_pos hemp]

theorem nameTokenCands_nil {cs : List Char} (h : '$' ∉ cs) : nameTokenCands cs = [] := by
  unfold nameTokenCands
  split
  · split
    · split
      · rename_i r2 hr2
        exfalso
        apply h
        have : '$' ∈ cs.drop (cs.takeWhile Char.isAlphanum).length := by
          rw [hr2]; simp
        exact List.drop_subset _ cs this
      · rfl
    · rfl
  · rfl

theorem widthCands_nil {cs : List Char}
    (hhd : ∀ c, cs.head? = some c → c.isDigit = false) (hd : '$' ∉ cs) :
    widthCands cs = [] := by
  unfold widthCands
  rw [digitTokenCands_nil hhd, nameTokenCands_nil hd]
  rfl

theorem digitTokenCands_decimal (n : Nat) (rest : List Char)
    (htw : rest.takeWhile Char.isDigit = []) (hd : '$' ∉ rest) :
    digitTokenCands (natToDecimal n ++ rest) = [(natToDecimal n, rest)] := by
  unfold digitTokenCands
  rw [takeWhile_digit_decimal n rest htw]
  rw [if_neg (by simp [List.isEmpty_iff, (natToDecimal_spec n).1])]
  rw [List.drop_left]
  split
  · exact absurd (by simp) hd
  · rfl

theorem dollar_not_mem_decimal_append {n : Nat} {rest : List Char} (hd : '$' ∉ rest) :
    '$' ∉ natToDecimal n ++ rest := by
  intro hm
  rcases List.mem_append.mp hm with h | h
  · exact dollar_not_mem_decimal n h
  · exact hd h

theorem decimal_append_head_digit (n : Nat) (rest : List Char) :
    ∀ c, (natToDecimal n ++ rest).head? = some c → c.isDigit = true := by
  intro c hc
  rcases head?_append_cases hc with h | ⟨hnil, -⟩
  · exact (natToDecimal_spec n).2.1 c (head?_eq_some_mem h)
  · exact absurd hnil (natToDecimal_spec n).1

theorem widthCands_decimal (n : Nat) (rest : List Char)
    (htw : rest.takeWhile Char.isDigit = []) (hd : '$' ∉ rest) :
    widthCands (natToDecimal n ++ rest) = [(natToDecimal n, rest)] := by
  unfold widthCands
  rw [digitTokenCands_decimal n rest htw hd,
    nameTokenCands_nil (dollar_not_mem_decimal_append hd)]
  rfl

theorem precCands_decimal (n : Nat) (rest : List Char)
    (htw : rest.takeWhile Char.isDigit = []) (hd : '$' ∉ rest) :
    precCands (natToDecimal n ++ rest) = [(natToDecimal n, rest)] := by
  unfold precCands
  rw [digitTokenCands_decimal n rest htw hd,
    nameTokenCands_nil (dollar_not_mem_decimal_append hd)]
  rw [if_neg ?hstar]
  · rfl
  case hstar =>
    intro hc
    have := decimal_append_head_digit n rest '*' hc
    exact absurd this (by decide)

/-! Converting the canonical captures back into the specifier fields. -/

theorem align_tryFrom_cap (al : Align) :
    Align.tryFrom ((Align.cap al).getD []) = Except.ok al := by
  cases al <;> rfl

theorem sign_tryFrom_cap (sg : Sign) :
    Sign.tryFrom ((Sign.cap sg).getD []) = Except.ok sg := by
  cases sg <;> rfl

theorem repr_tryFrom_cap (rp : Repr) :
    Repr.tryFrom ((Repr.cap rp).getD []) = Except.ok rp := by
  cases rp <;> rfl

theorem pad_tryFrom_cap (pa : Pad) :
    Pad.tryFrom ((Pad.cap pa).getD []) = Except.ok pa := by
  cases pa <;> rfl

theorem format_tryFrom_cap (f : Format) :
    Format.tryFrom ((Format.cap f).getD []) = Except.ok f := by
  cases f <;> rfl

theorem parse_size_decimal {V : Type} (p : Parser V) (n : Nat) (hb : n < 2 ^ 64) :
    parse_size (natToDecimal n) p = some (Except.ok n) := by
  have hlast : (natToDecimal n).getLast? ≠ some '$' := by
    intro hl
    exact dollar_not_mem_decimal n (List.mem_of_mem_getLast? hl)
  unfold parse_size
  rw [if_neg hlast, parseNatAscii_natToDecimal hb]

theorem width_parse_cap {V : Type} (p : Parser V) (w : Width)
    (hb : ∀ n, w = Width.atLeast n → n < 2 ^ 64) :
    Width.parse (Width.cap w) p = some (Except.ok w) := by
  cases w with
  | auto => rfl
  | atLeast n =>
    unfold Width.parse
    simp only [Width.cap, Option.getD_some]
    split
    · rename_i heq
      exact absurd heq (natToDecimal_spec n).1
    · rename_i s heq
      rw [parse_size_decimal p n (hb n rfl)]
      rfl

theorem precision_parse_cap {V : Type} (p : Parser V) (pr : Precision)
    (hb : ∀ n, pr = Precision.exactly n → n < 2 ^ 64) :
    Precision.parse (Precision.cap pr) p = some (Except.ok pr, p) := by
  cases pr with
  | auto => rfl
  | exactly n =>
    unfold Precision.parse
    simp only [Precision.cap, Option.getD_some]
    split
    · rename_i heq
      exact absurd heq (natToDecimal_spec n).1
    · rename_i heq
      exfalso
      have : '*' ∈ natToDecimal n := by rw [heq]; simp
      have := (natToDecimal_spec n).2.1 _ this
      exact absurd this (by decide)
    · rw [parse_size_decimal p n (hb n rfl)]
      rfl

/-- The canonical captures of a specifier convert back to it, leaving the
argument source untouched (all sizes are literal). -/
theorem parse_specifier_captures_capsOf {V : Type} (p : Parser V) (s : Specifier)
    (hwb : ∀ n, s.width = Width.atLeast n → n < 2 ^ 64)
    (hpb : ∀ n, s.precision = Precision.exactly n → n < 2 ^ 64) :
    parse_specifier_captures s.capsOf p = some (Except.ok s, p) := by
  obtain ⟨al, sg, rp, pa, w, pr, f⟩ := s
  unfold parse_specifier_captures Specifier.capsOf
  rw [align_tryFrom_cap al]
  dsimp only
  rw [sign_tryFrom_cap sg]
  dsimp only
  rw [repr_tryFrom_cap rp]
  dsimp only
  rw [pad_tryFrom_cap pa]
  dsimp only
  rw [width_parse_cap p w hwb]
  dsimp only
  rw [precision_parse_cap p pr hpb]
  dsimp only
  rw [format_tryFrom_cap f]

/-! Matching a rendered specifier stage by stage.  Each lemma consumes one
dimension's fragment (or skips it when the dimension is default, checking
that the following characters cannot trigger the group). -/

theorem roundtrip_fmt (a b c d e q : Option (List Char)) (f : Format) :
    fmtStage (fun _ => true) ⟨a, b, c, d, e, q, Option.none⟩ (Format.frag f) =
      some (⟨a, b, c, d, e, q, Format.cap f⟩, []) := by
  cases f <;> rfl

theorem precStage_cons_dot (T : List Char → Bool) (caps : SpecCaptures) (cs : List Char) :
    precStage T caps ('.' :: cs) =
      ((precCands cs).findSome?
        (fun (tr : List Char × List Char) =>
          fmtStage T { caps with precision := some tr.1 } tr.2)).orElse
      (fun _ => fmtStage T caps ('.' :: cs)) := rfl

theorem padStage_cons_zero (T : List Char → Bool) (caps : SpecCaptures) (cs : List Char) :
    padStage T caps ('0' :: cs) =
      (widthStage T { caps with pad := some ['0'] } cs).orElse
      (fun _ => widthStage T caps ('0' :: cs)) := rfl

theorem padStage_not_zero (T : List Char → Bool) (caps : SpecCaptures) {ch : Char}
    (cs : List Char) (h : ch ≠ '0') :
    padStage T caps (ch :: cs) = widthStage T caps (ch :: cs) := by
  unfold padStage
  split
  · rename_i rest heq
    injection heq with h1 h2
    exact absurd h1 h
  · rfl

theorem reprStage_cons_hash (T : List Char → Bool) (caps : SpecCaptures) (cs : List Char) :
    reprStage T caps ('#' :: cs) =
      (padStage T { caps with repr := some ['#'] } cs).orElse
      (fun _ => padStage T caps ('#' :: cs)) := rfl

theorem reprStage_not_hash (T : List Char → Bool) (caps : SpecCaptures) {ch : Char}
    (cs : List Char) (h : ch ≠ '#') :
    reprStage T caps (ch :: cs) = padStage T caps (ch :: cs) := by
  unfold reprStage
  split
  · rename_i rest heq
    injection heq with h1 h2
    exact absurd h1 h
  · rfl

theorem signStage_cons_plus (T : List Char → Bool) (caps : SpecCaptures) (cs : List Char) :
    signStage T caps ('+' :: cs) =
      (reprStage T { caps with sign := some ['+'] } cs).orElse
      (fun _ => reprStage T caps ('+' :: cs)) := rfl

theorem signStage_not_plus (T : List Char → Bool) (caps : SpecCaptures) {ch : Char}
    (cs : List Char) (h : ch ≠ '+') :
    signStage T caps (ch :: cs) = reprStage T caps (ch :: cs) := by
  unfold signStage
  split
  · rename_i rest heq
    injection heq with h1 h2
    exact absurd h1 h
  · rfl

theorem alignStage_cons (T : List Char → Bool) (caps : SpecCaptures) (ch : Char)
    (cs : List Char) :
    alignStage T caps (ch :: cs) =
      (if isAlignChar ch then signStage T { caps with align := some [ch] } cs else none).orElse
      (fun _ => signStage T caps (ch :: cs)) := rfl

theorem roundtrip_prec (a b c d e : Option (List Char)) (pr : Precision) (f : Format) :
    precStage (fun _ => true) ⟨a, b, c, d, e, Option.none, Option.none⟩
      (Precision.frag pr ++ Format.frag f) =
      some (⟨a, b, c, d, e, Precision.cap pr, Format.cap f⟩, []) := by
  cases pr with
  | auto => cases f <;> rfl
  | exactly n =>
    simp only [Precision.frag, List.cons_append, Precision.cap]
    rw [precStage_cons_dot]
    rw [precCands_decimal n (Format.frag f)
      (fmtFrag_takeWhile_digit f) (by cases f <;> decide)]
    simp only [List.findSome?]
    rw [roundtrip_fmt a b c d e (some (natToDecimal n)) f]
    rfl

theorem roundtrip_width (a b c d : Option (List Char)) (w : Width) (pr : Precision)
    (f : Format) :
    widthStage (fun _ => true) ⟨a, b, c, d, Option.none, Option.none, Option.none⟩
      (Width.frag w ++ (Precision.frag pr ++ Format.frag f)) =
      some (⟨a, b, c, d, Width.cap w, Precision.cap pr, Format.cap f⟩, []) := by
  cases w with
  | auto =>
    simp only [Width.frag, List.nil_append, Width.cap]
    unfold widthStage
    rw [widthCands_nil ?hhd (dollar_not_mem_pf pr f)]
    · simp only [List.findSome?_nil]
      exact roundtrip_prec a b c d Option.none pr f
    case hhd =>
      intro ch hch
      rcases pf_head hch with rfl | hfmt
      · decide
      · exact fmt_not_digit hfmt
  | atLeast n =>
    simp only [Width.frag, Width.cap]
    unfold widthStage
    rw [widthCands_decimal n (Precision.frag pr ++ Format.frag f)
      (pf_takeWhile_digit pr f) (dollar_not_mem_pf pr f)]
    simp only [List.findSome?]
    rw [roundtrip_prec a b c d (some (natToDecimal n)) pr f]
    rfl

theorem roundtrip_pad (a b c : Option (List Char)) (pa : Pad) (w : Width) (pr : Precision)
    (f : Format) (hex : pa = Pad.space → w ≠ Width.atLeast 0) :
    padStage (fun _ => true) ⟨a, b, c, Option.none, Option.none, Option.none, Option.none⟩
      (Pad.frag pa ++ (Width.frag w ++ (Precision.frag pr ++ Format.frag f))) =
      some (⟨a, b, c, Pad.cap pa, Width.cap w, Precision.cap pr, Format.cap f⟩, []) := by
  cases pa with
  | zero =>
    simp only [Pad.frag, List.cons_append, List.nil_append, Pad.cap]
    rw [padStage_cons_zero]
    dsimp only
    rw [roundtrip_width a b c (some ['0']) w pr f]
    rfl
  | space =>
    simp only [Pad.frag, List.nil_append, Pad.cap]
    have hw := roundtrip_width a b c Option.none w pr f
    cases hE : (Width.frag w ++ (Precision.frag pr ++ Format.frag f)) with
    | nil =>
      rw [hE] at hw
      exact hw
    | cons ch rest =>
      rw [hE] at hw
      rw [padStage_not_zero _ _ _ ?hch]
      · exact hw
      case hch =>
        intro h0
        subst h0
        have hhd : (Width.frag w ++ (Precision.frag pr ++ Format.frag f)).head? =
            some '0' := by rw [hE]; rfl
        cases w with
        | auto =>
          simp only [Width.frag, List.nil_append] at hhd
          rcases pf_head hhd with h | h
          · exact absurd h (by decide)
          · exact absurd h (by decide)
        | atLeast n =>
          rcases head?_append_cases hhd with h | ⟨hnil, -⟩
          · have := (natToDecimal_spec n).2.2.2 _ h rfl
            exact hex rfl (by rw [this])
          · exact absurd (by simpa [Width.frag] using hnil) (natToDecimal_spec n).1

theorem roundtrip_repr (a b : Option (List Char)) (rp : Repr) (pa : Pad) (w : Width)
    (pr : Precision) (f : Format) (hex : pa = Pad.space → w ≠ Width.atLeast 0) :
    reprStage (fun _ => true)
      ⟨a, b, Option.none, Option.none, Option.none, Option.none, Option.none⟩
      (Repr.frag rp ++ (Pad.frag pa ++ (Width.frag w ++
        (Precision.frag pr ++ Format.frag f)))) =
      some (⟨a, b, Repr.cap rp, Pad.cap pa, Width.cap w, Precision.cap pr,
        Format.cap f⟩, []) := by
  cases rp with
  | alt =>
    simp only [Repr.frag, List.cons_append, List.nil_append, Repr.cap]
    rw [reprStage_cons_hash]
    dsimp only
    rw [roundtrip_pad a b (some ['#']) pa w pr f hex]
    rfl
  | default =>
    simp only [Repr.frag, List.nil_append, Repr.cap]
    have hp := roundtrip_pad a b Option.none pa w pr f hex
    cases hE : (Pad.frag pa ++ (Width.frag w ++ (Precision.frag pr ++ Format.frag f))) with
    | nil =>
      rw [hE] at hp
      exact hp
    | cons ch rest =>
      rw [hE] at hp
      rw [reprStage_not_hash _ _ _ ?hch]
      · exact hp
      case hch =>
        intro h0
        subst h0
        have hhd : (Pad.frag pa ++ (Width.frag w ++ (Precision.frag pr ++
            Format.frag f))).head? = some '#' := by rw [hE]; rfl
        rcases pwpf_head hhd with h | h | h | h
        · exact absurd h (by decide)
        · exact absurd h (by decide)
        · exact absurd h (by decide)
        · exact absurd (fmt_ne_hash h) (by simp)

theorem roundtrip_sign (a : Option (List Char)) (sg : Sign) (rp : Repr) (pa : Pad)
    (w : Width) (pr : Precision) (f : Format)
    (hex : pa = Pad.space → w ≠ Width.atLeast 0) :
    signStage (fun _ => true)
      ⟨a, Option.none, Option.none, Option.none, Option.none, Option.none, Option.none⟩
      (Sign.frag sg ++ (Repr.frag rp ++ (Pad.frag pa ++ (Width.frag w ++
        (Precision.frag pr ++ Format.frag f))))) =
      some (⟨a, Sign.cap sg, Repr.cap rp, Pad.cap pa, Width.cap w, Precision.cap pr,
        Format.cap f⟩, []) := by
  cases sg with
  | always =>
    simp only [Sign.frag, List.cons_append, List.nil_append, Sign.cap]
    rw [signStage_cons_plus]
    dsimp only
    rw [roundtrip_repr a (some ['+']) rp pa w pr f hex]
    rfl
  | default =>
    simp only [Sign.frag, List.nil_append, Sign.cap]
    have hr := roundtrip_repr a Option.none rp pa w pr f hex
    cases hE : (Repr.frag rp ++ (Pad.frag pa ++ (Width.frag w ++
        (Precision.frag pr ++ Format.frag f)))) with
    | nil =>
      rw [hE] at hr
      exact hr
    | cons ch rest =>
      rw [hE] at hr
      rw [signStage_not_plus _ _ _ ?hch]
      · exact hr
      case hch =>
        intro h0
        subst h0
        have hhd : (Repr.frag rp ++ (Pad.frag pa ++ (Width.frag w ++
            (Precision.frag pr ++ Format.frag f)))).head? = some '+' := by rw [hE]; rfl
        rcases rpwpf_head hhd with h | h | h | h | h
        · exact absurd h (by decide)
        · exact absurd h (by decide)
        · exact absurd h (by decide)
        · exact absurd h (by decide)
        · exact absurd (fmt_ne_plus h) (by simp)

theorem roundtrip_align (al : Align) (sg : Sign) (rp : Repr) (pa : Pad) (w : Width)
    (pr : Precision) (f : Format) (hex : pa = Pad.space → w ≠ Width.atLeast 0) :
    alignStage (fun _ => true) SpecCaptures.empty
      (Align.frag al ++ (Sign.frag sg ++ (Repr.frag rp ++ (Pad.frag pa ++ (Width.frag w ++
        (Precision.frag pr ++ Format.frag f)))))) =
      some (⟨Align.cap al, Sign.cap sg, Repr.cap rp, Pad.cap pa, Width.cap w,
        Precision.cap pr, Format.cap f⟩, []) := by
  have hal1 : isAlignChar '<' = true := by decide
  have hal2 : isAlignChar '^' = true := by decide
  have hal3 : isAlignChar '>' = true := by decide
  cases al with
  | left =>
    simp only [Align.frag, List.cons_append, List.nil_append, Align.cap]
    unfold SpecCaptures.empty
    rw [alignStage_cons]
    rw [if_pos hal1]
    dsimp only
    rw [roundtrip_sign (some ['<']) sg rp pa w pr f hex]
    rfl
  | center =>
    simp only [Align.frag, List.cons_append, List.nil_append, Align.cap]
    unfold SpecCaptures.empty
    rw [alignStage_cons]
    rw [if_pos hal2]
    dsimp only
    rw [roundtrip_sign (some ['^']) sg rp pa w pr f hex]
    rfl
  | right =>
    simp only [Align.frag, List.cons_append, List.nil_append, Align.cap]
    unfold SpecCaptures.empty
    rw [alignStage_cons]
    rw [if_pos hal3]
    dsimp only
    rw [roundtrip_sign (some ['>']) sg rp pa w pr f hex]
    rfl
  | none =>
    simp only [Align.frag, List.nil_append, Align.cap]
    unfold SpecCaptures.empty
    have hs := roundtrip_sign Option.none sg rp pa w pr f hex
    cases hE : (Sign.frag sg ++ (Repr.frag rp ++ (Pad.frag pa ++ (Width.frag w ++
        (Precision.frag pr ++ Format.frag f))))) with
    | nil =>
      rw [hE] at hs
      exact hs
    | cons ch rest =>
      rw [hE] at hs
      rw [alignStage_cons]
      rw [if_neg ?hch]
      · exact hs
      case hch =>
        intro hch
        have hhd : (Sign.frag sg ++ (Repr.frag rp ++ (Pad.frag pa ++ (Width.frag w ++
            (Precision.frag pr ++ Format.frag f))))).head? = some ch := by rw [hE]; rfl
        rcases spwpf_head hhd with h | h | h | h | h | h
        · subst h; exact absurd hch (by decide)
        · subst h; exact absurd hch (by decide)
        · subst h; exact absurd hch (by decide)
        · rw [digit_not_align h] at hch; exact Bool.noConfusion hch
        · subst h; exact absurd hch (by decide)
        · rw [fmt_not_align h] at hch; exact Bool.noConfusion hch

/-- Matching the canonical rendering of a specifier against the full
specifier fragment yields exactly its canonical captures, consuming all
input.  The proviso excludes the one ambiguous rendering: a space-padded
zero width renders as `0`, which re-captures as the pad group. -/
theorem specFragMatch_render (s : Specifier)
    (hex : s.pad = Pad.space → s.width ≠ Width.atLeast 0) :
    specFragMatch s.render (fun _ => true) = some (s.capsOf, []) := by
  obtain ⟨al, sg, rp, pa, w, pr, f⟩ := s
  unfold specFragMatch Specifier.render Specifier.capsOf
  simp only [List.append_assoc]
  exact roundtrip_align al sg rp pa w pr f hex

/-- Claim C5 (amended): rendering a `Specifier` through its `Display`
implementation and re-parsing the text with `parse_specifier` returns
`Ok` of an equal specifier without touching the argument source — except
when the specifier is space-padded with an explicit width of zero, whose
rendering `0` re-parses as zero padding.  The width/precision bounds
reflect that the source stores them in `usize` fields.  The spec's
minimal guarantee (round-tripping for all-default specifiers) is the
instance `pad = Space`, `width = Auto` of this statement. -/
theorem claim5_roundtrip_amended {V : Type} (p : Parser V) (s : Specifier)
    (hwb : ∀ n, s.width = Width.atLeast n → n < 2 ^ 64)
    (hpb : ∀ n, s.precision = Precision.exactly n → n < 2 ^ 64)
    (hex : s.pad = Pad.space → s.width ≠ Width.atLeast 0) :
    parse_specifier s.render p = some (Except.ok s, p) := by
  unfold parse_specifier
  rw [specFragMatch_render s hex]
  exact parse_specifier_captures_capsOf p s hwb hpb

/-- Claim C5, counterexample to the unamended statement: the specifier
with default dimensions except `width = AtLeast 0` renders as `0`, and
re-parsing that text yields the distinct specifier with `pad = Zero` and
`width = Auto`. -/
theorem claim5_counterexample :
    (∀ (V : Type) (p : Parser V),
      parse_specifier (Specifier.render ⟨Align.none, Sign.default, Repr.default, Pad.space,
          Width.atLeast 0, Precision.auto, Format.display⟩) p =
        some (Except.ok ⟨Align.none, Sign.default, Repr.default, Pad.zero,
          Width.auto, Precision.auto, Format.display⟩, p)) ∧
    decide ((⟨Align.none, Sign.default, Repr.default, Pad.zero, Width.auto,
        Precision.auto, Format.display⟩ : Specifier) =
      ⟨Align.none, Sign.default, Repr.default, Pad.space, Width.atLeast 0, Precision.auto,
        Format.display⟩) = false :=
  ⟨fun V p => rfl, by decide⟩

/-- Witness for C5: the smoke-test specifier `>+#042.17E` round-trips. -/
theorem claim5_witness :
    parse_specifier (Specifier.render ⟨Align.right, Sign.always, Repr.alt, Pad.zero,
        Width.atLeast 42, Precision.exactly 17, Format.upperExp⟩)
      (Parser.new variantFA [] [] noNamed) =
      some (Except.ok ⟨Align.right, Sign.always, Repr.alt, Pad.zero, Width.atLeast 42,
        Precision.exactly 17, Format.upperExp⟩, Parser.new variantFA [] [] noNamed) :=
  claim5_roundtrip_amended (Parser.new variantFA [] [] noNamed)
    ⟨Align.right, Sign.always, Repr.alt, Pad.zero, Width.atLeast 42, Precision.exactly 17,
      Format.upperExp⟩
    (fun n h => by injection h with h2; rw [← h2]; decide)
    (fun n h => by injection h with h2; rw [← h2]; decide)
    (fun h => absurd h (by decide))

end RtFormat
